import Mathlib

/-!
Shallow embedding of the solana-rug-tracker crawl engine (src/index.js and
src/unnamed/part_000) and proofs about its behaviour.

Modelling conventions:
* JavaScript `Map` objects (`DEPTH`, `WATCH`, the per-transaction `dests`
  aggregate) are association lists preserving insertion order, exactly as a
  JS `Map` iterates.
* JavaScript string falsiness (`undefined`, `null`, `""`) is modelled by
  `Option String` together with the `truthy` predicate; the `a || b` idiom on
  such values is `jsOr`.
* JS numbers that carry transfer amounts are modelled as `ℚ` (the code divides
  lamports by 1e9, so integer arithmetic does not suffice).
* Network calls are oracles passed in as functions (`ledger`, `discover`);
  timers (`sleep`) are events in an emitted trace, not real time.
-/

namespace RugTracker

/-- JS truthiness of a possibly-absent string (`undefined`/`null`/`""` are falsy). -/
def truthy : Option String → Bool
  | none => false
  | some s => s ≠ ""

/-- The JS `a || b` idiom on possibly-absent strings. -/
def jsOr (a b : Option String) : Option String :=
  if truthy a then a else b

/-- `[x, y, z].filter(Boolean)` on possibly-absent strings. -/
def jsTruthyList (l : List (Option String)) : List String :=
  l.filterMap (fun o => if truthy o then o else none)

/-- `Map.prototype.get`: first binding of the key in the association list. -/
def mapGet {κ ν : Type} [DecidableEq κ] : List (κ × ν) → κ → Option ν
  | [], _ => none
  | (k', v) :: rest, k => if k' = k then some v else mapGet rest k

/-- `Map.prototype.set`: update in place if the key exists (keeping its
position, as a JS `Map` does), else append at the end. -/
def mapSet {κ ν : Type} [DecidableEq κ] : List (κ × ν) → κ → ν → List (κ × ν)
  | [], k, v => [(k, v)]
  | (k', v') :: rest, k, v =>
    if k' = k then (k, v) :: rest else (k', v') :: mapSet rest k v

/-- `String.prototype.includes`: substring test, via `splitOn`. -/
def containsSub (hay pat : String) : Bool :=
  (hay.splitOn pat).length > 1

/-- The configuration struct (src/index.js lines 15-32), with the validity of a
base58 public key (`new PublicKey` not throwing) supplied as an oracle. -/
structure Config where
  MIN_SOL : ℚ
  MIN_SPL_UNITS : ℚ
  MAX_DEPTH : ℕ
  TOP_CHILDREN : ℕ
  CEX : List String
  validKey : String → Bool

/-- The two known token program ids (src/index.js lines 35-38). -/
def TOKEN_PROGRAMS : List String :=
  ["TokenkegQfeZyiNwAJbNbGKPFXCWuBvf9Ss623VQ5DA",
   "TokenzQdBNbLqP5VEh9bSTBz2T9SxH3hszMpyyZHPv9"]

/-- `isCEX` (src/index.js line 48); `CEX.has(undefined)` is false. -/
def isCEX (cfg : Config) : Option String → Bool
  | none => false
  | some a => cfg.CEX.contains a

/-- The `parsed.info` payload of a parsed instruction: every field the code
reads, each possibly absent. -/
structure ParsedInfo where
  source : Option String := none
  destination : Option String := none
  lamports : Option ℕ := none
  owner : Option String := none
  sourceOwner : Option String := none
  authority : Option String := none
  destinationOwner : Option String := none
  account : Option String := none
  amount : Option ℕ := none
deriving DecidableEq

/-- The `parsed` payload (`parsed.type`, `parsed.info || {}`). -/
structure ParsedIns where
  typ : Option String := none
  info : Option ParsedInfo := none
deriving DecidableEq

/-- One instruction of `tx.transaction.message.instructions`. -/
structure Ins where
  program : Option String := none
  programId : String := ""
  parsed : Option ParsedIns := none
deriving DecidableEq

/-- A fetched parsed transaction: `tx.transaction.message.instructions || []`
and `tx?.meta?.logMessages || []`. `getParsedTransaction` returning null or a
record without `.transaction` is modelled as `Option Tx = none` at call sites. -/
structure Tx where
  instrs : List Ins := []
  logMessages : List String := []
deriving DecidableEq

/-- The SOL block of the instruction loop of `handleSignature`
(src/index.js lines 137-144): a system-program `transfer` whose source is
`fromAddr` and whose amount (lamports scaled to SOL) clears `MIN_SOL` is
added to the aggregate under its raw `destination`, unless ignored. -/
def solBranch (cfg : Config) (fromAddr : String)
    (dests : List (Option String × ℚ)) (ins : Ins) : List (Option String × ℚ) :=
  match ins.parsed with
  | none => dests
  | some p =>
    if ins.program = some "system" ∧ p.typ = some "transfer" then
      if (p.info.getD {}).source = some fromAddr then
        if cfg.MIN_SOL ≤ (((p.info.getD {}).lamports.getD 0 : ℕ) : ℚ) / 1000000000
            ∧ isCEX cfg (p.info.getD {}).destination = false then
          mapSet dests (p.info.getD {}).destination
            ((mapGet dests (p.info.getD {}).destination).getD 0
              + (((p.info.getD {}).lamports.getD 0 : ℕ) : ℚ) / 1000000000)
        else dests
      else dests
    else dests

/-- The SPL block of the instruction loop (src/index.js lines 147-157): a
token-program `transfer`/`transferChecked` whose owner/authority includes
`fromAddr` and whose raw amount clears `MIN_SPL_UNITS` is added under
`destinationOwner || destination || account || null` (see `tokenKey`),
unless ignored. -/
def splBranch (cfg : Config) (fromAddr : String)
    (dests : List (Option String × ℚ)) (ins : Ins) : List (Option String × ℚ) :=
  match ins.parsed with
  | none => dests
  | some p =>
    if (ins.program = some "spl-token" ∨ TOKEN_PROGRAMS.contains ins.programId)
        ∧ (p.typ = some "transfer" ∨ p.typ = some "transferChecked") then
      if (jsTruthyList [(p.info.getD {}).owner, (p.info.getD {}).sourceOwner,
            (p.info.getD {}).authority]).contains fromAddr then
        if truthy (jsOr (jsOr (jsOr (p.info.getD {}).destinationOwner
              (p.info.getD {}).destination) (p.info.getD {}).account) none)
            ∧ cfg.MIN_SPL_UNITS ≤ (((p.info.getD {}).amount.getD 0 : ℕ) : ℚ)
            ∧ isCEX cfg (jsOr (jsOr (jsOr (p.info.getD {}).destinationOwner
              (p.info.getD {}).destination) (p.info.getD {}).account) none) = false then
          mapSet dests
            (jsOr (jsOr (jsOr (p.info.getD {}).destinationOwner
              (p.info.getD {}).destination) (p.info.getD {}).account) none)
            ((mapGet dests (jsOr (jsOr (jsOr (p.info.getD {}).destinationOwner
              (p.info.getD {}).destination) (p.info.getD {}).account) none)).getD 0
              + (((p.info.getD {}).amount.getD 0 : ℕ) : ℚ))
        else dests
      else dests
    else dests

/-- One iteration of the instruction loop of `handleSignature`
(src/index.js lines 131-158): the SOL block runs first, then the SPL block
sees the updated aggregate, exactly as the two sequential `if`s do. -/
def destStep (cfg : Config) (fromAddr : String)
    (dests : List (Option String × ℚ)) (ins : Ins) : List (Option String × ℚ) :=
  splBranch cfg fromAddr (solBranch cfg fromAddr dests ins) ins

/-- The full `dests` aggregate of one transaction (src/index.js lines 128-158). -/
def extractDests (cfg : Config) (fromAddr : String) (instrs : List Ins) :
    List (Option String × ℚ) :=
  instrs.foldl (destStep cfg fromAddr) []

/-- Insert an entry into a descending-sorted list, after every entry with a
strictly larger amount (so that, entries being inserted in original order,
ties keep first-encountered order — the stability of the ES2019 `sort`). -/
def insertDesc (p : Option String × ℚ) : List (Option String × ℚ) → List (Option String × ℚ)
  | [] => [p]
  | q :: qs => if p.2 < q.2 then q :: insertDesc p qs else p :: q :: qs

/-- Stable descending sort by amount, modelling
`[...dests.entries()].sort((a,b)=>b[1]-a[1])` (src/index.js line 163). -/
def sortDesc : List (Option String × ℚ) → List (Option String × ℚ)
  | [] => []
  | p :: ps => insertDesc p (sortDesc ps)

/-- The `top` list of `handleSignature` (line 163): stable descending sort then
`slice(0, TOP_CHILDREN)`. -/
def topChildren (cfg : Config) (dests : List (Option String × ℚ)) :
    List (Option String × ℚ) :=
  (sortDesc dests).take cfg.TOP_CHILDREN

/-- The global mutable state of src/index.js (lines 44-46): the `SEEN`
signature set, the `DEPTH` registry and the `WATCH` table (the `subId`
subscription handle is an opaque external value; we record the depth stored
alongside it). -/
structure St where
  seen : List String := []
  depth : List (String × ℕ) := []
  watch : List (String × ℕ) := []
deriving DecidableEq

/-- Observable events emitted by the crawl engine (console logs and
subscription openings), in emission order. -/
inductive Ev where
  | seenAdd (sig : String)
  | fetch (sig : String)
  | mint (fromAddr sig : String)
  | edge (fromAddr : String) (toAddr : Option String) (amt : ℚ) (depth : ℕ)
  | maxDepthWarn (toAddr : Option String)
  | subscribed (addr : String) (depth : ℕ)
deriving DecidableEq

/-- The `DEPTH` registry update of `addAddress` (src/index.js line 95): keep
the smallest depth encountered for this address. -/
def depthUpdate (st : St) (a : String) (depth : ℕ) : List (String × ℕ) :=
  match mapGet st.depth a with
  | none => mapSet st.depth a depth
  | some d0 => if depth < d0 then mapSet st.depth a depth else st.depth

/-- `addAddress(addr, depth, subscribeNow)` continued (src/index.js
lines 90-104). Returns the new state and the emitted events; the `DEPTH`
mutation of line 95 is `depthUpdate`. -/
def addAddress (cfg : Config) (st : St) (addr : Option String) (depth : ℕ)
    (subscribeNow : Bool) : St × List Ev :=
  match addr with
  | none => (st, [])                                  -- if (!addr) return
  | some a =>
    if a = "" then (st, []) else                      -- if (!addr) return
    if cfg.MAX_DEPTH < depth then (st, []) else       -- if (depth > MAX_DEPTH) return
    let st1 : St := { st with depth := depthUpdate st a depth }
    if subscribeNow = false then (st1, []) else       -- line 97
    if (mapGet st1.watch a).isSome then (st1, []) else -- if (WATCH.has(addr)) return
    if cfg.validKey a = false then (st1, []) else     -- new PublicKey throwing
    ({ st1 with watch := mapSet st1.watch a depth }, [Ev.subscribed a depth])

/-- One iteration of the `for (const [to, amt] of top)` expansion loop
(src/index.js lines 164-170). -/
def expandStep (cfg : Config) (fromAddr : String) (depth : ℕ) :
    St × List Ev → Option String × ℚ → St × List Ev
  | (st, evs), (dst, amt) =>
    let nextDepth := depth + 1
    if cfg.MAX_DEPTH < nextDepth then (st, evs ++ [Ev.maxDepthWarn dst]) else
    let r := addAddress cfg st dst nextDepth false
    (r.1, evs ++ [Ev.edge fromAddr dst amt nextDepth] ++ r.2)

/-- `handleSignature(fromAddr, depth, signature)` (src/index.js lines 114-171).
The ledger oracle stands for `getParsedTx`; `none` covers both a null result
and a record without `.transaction`. -/
def handleSignature (cfg : Config) (ledger : String → Option Tx) (st : St)
    (fromAddr : String) (depth : ℕ) (sig : String) : St × List Ev :=
  let st1 : St := { st with seen := sig :: st.seen }  -- SEEN.add, before the fetch
  let evs := [Ev.seenAdd sig, Ev.fetch sig]
  match ledger sig with
  | none => (st1, evs)
  | some tx =>
    let evs :=
      if tx.logMessages.any (fun l => containsSub l "Instruction: InitializeMint")
      then evs ++ [Ev.mint fromAddr sig] else evs
    let dests := extractDests cfg fromAddr tx.instrs
    if dests.isEmpty then (st1, evs) else
    (topChildren cfg dests).foldl (expandStep cfg fromAddr depth) (st1, evs)

/-- Units of work arriving at the engine over the process lifetime: a live
`onLogs` notification (src/index.js lines 106-112; the signature may be
absent), one signature of a backfill page walk (lines 196-199), or a direct
`addAddress` call from the boot sequence (lines 232 and 239). -/
inductive Intake where
  | live (addr : String) (fallbackDepth : ℕ) (sig : Option String)
  | backfill (addr : String) (sig : String)
  | addAddr (addr : Option String) (depth : ℕ) (subscribeNow : Bool)

/-- Process one intake unit. Both classification paths check `SEEN` before
calling `handleSignature`, and look the current `DEPTH` up at call time. -/
def runIntake (cfg : Config) (ledger : String → Option Tx) (st : St) :
    Intake → St × List Ev
  | .live addr d0 sig =>
    match sig with
    | none => (st, [])                                -- if (!sig ...) return
    | some s =>
      if s = "" then (st, []) else                    -- if (!sig ...) return
      if st.seen.contains s then (st, []) else        -- if (... SEEN.has(sig)) return
      handleSignature cfg ledger st addr ((mapGet st.depth addr).getD d0) s
  | .backfill addr s =>
      if st.seen.contains s then (st, []) else        -- if (!SEEN.has(s.signature))
      handleSignature cfg ledger st addr ((mapGet st.depth addr).getD 0) s
  | .addAddr addr depth subscribeNow =>
      addAddress cfg st addr depth subscribeNow

/-- Run a whole sequence of intake units, concatenating the emitted traces. -/
def runTrace (cfg : Config) (ledger : String → Option Tx) :
    St → List Intake → St × List Ev
  | st, [] => (st, [])
  | st, e :: es =>
    let r1 := runIntake cfg ledger st e
    let r2 := runTrace cfg ledger r1.1 es
    (r2.1, r1.2 ++ r2.2)

/-- `withRetry` (src/index.js lines 57-73), unrolled on an attempt counter.
`fn n` is the outcome of the n-th call (1-based). Returns either the success
value or the terminal error `(attempt count, last message)`, together with the
list of backoff delays slept (in ms). `fuel` bounds the loop; `MAX_RETRIES + 1`
is always sufficient (see `retryGo_fuel_enough`). -/
def retryGo {α : Type} (fn : ℕ → Except String α) (maxRetries retryBase : ℕ) :
    ℕ → ℕ → Except (ℕ × String) α × List ℕ
  | _, 0 => (.error (0, "fuel exhausted"), [])
  | attempt, fuel + 1 =>
    match fn (attempt + 1) with
    | .ok x => (.ok x, [])
    | .error msg =>
      let attempt1 := attempt + 1
      if maxRetries ≤ attempt1 then (.error (attempt1, msg), []) else
      let backoff := retryBase * 2 ^ (attempt1 - 1)
      let r := retryGo fn maxRetries retryBase attempt1 fuel
      (r.1, backoff :: r.2)

/-- `withRetry(fn)` with the loop fuel instantiated to a sufficient bound. -/
def withRetry {α : Type} (fn : ℕ → Except String α) (maxRetries retryBase : ℕ) :
    Except (ℕ × String) α × List ℕ :=
  retryGo fn maxRetries retryBase 0 (maxRetries + 1)

/-! ### The backfill page walk of src/index.js (`backfillAllFrom`, lines 174-222)

The ledger history of one address is a list of signatures, newest first, as
`getSignaturesForAddress` returns it. The cursor `before` always equals the
last signature of the page just fetched, so fetching the next page amounts to
dropping `PAGE_SIZE` entries from the remaining history. -/

/-- The inner `for (const s of batch)` loop (lines 190-213): returns the list
of signatures actually classified (in order), the updated `SEEN`, the updated
`count`, and whether the `BACKFILL_LIMIT` early-return fired. -/
def procBatch (limit : ℕ) : List String → List String → ℕ →
    List String × List String × ℕ × Bool
  | [], seen, count => ([], seen, count, false)
  | s :: rest, seen, count =>
    if limit ≠ 0 ∧ limit ≤ count then ([], seen, count, true) else
    if seen.contains s then procBatch limit rest seen count else
    let r := procBatch limit rest (s :: seen) (count + 1)
    (s :: r.1, r.2.1, r.2.2.1, r.2.2.2)

/-- `backfillAllFrom` (lines 181-219), as the ordered list of signatures fed to
`handleSignature`. `hist` is the address's remaining history, newest first;
each iteration fetches `hist.take pageSize` and reverses it before processing.
`fuel` bounds the page loop (`hist.length` pages always suffice). -/
def backfillAllFrom (pageSize limit : ℕ) :
    ℕ → List String → List String → ℕ → List String
  | 0, _, _, _ => []
  | fuel + 1, hist, seen, count =>
    match hist.take pageSize with
    | [] => []                                        -- if (!sigs.length) break
    | _ :: _ =>
      let batch := (hist.take pageSize).reverse       -- sigs.slice().reverse()
      let r := procBatch limit batch seen count
      if r.2.2.2 then r.1 else                        -- early return on limit
      if limit ≠ 0 ∧ limit ≤ r.2.2.1 then r.1 else    -- break on limit
      r.1 ++ backfillAllFrom pageSize limit fuel (hist.drop pageSize) r.2.1 r.2.2.1

/-! ### The drain loop of src/unnamed/part_000 (`backfillBFS`, lines 109-139) -/

namespace BFS

/-- The scheduler state: the FIFO `BACKFILL_QUEUE` of `{addr, depth}` records
and the `ENQUEUED` guard set. -/
structure BfsSt where
  queue : List (String × ℕ) := []
  enq : List String := []
deriving DecidableEq

/-- Observable events of the drain loop: one address pulled off the queue and
backfilled, the `BACKFILL_QUEUE.length === 0` check succeeding, the settle
`sleep(2000)`, and the completion log + `IN_BACKFILL = false` flip. -/
inductive BEv where
  | drainAddr (a : String)
  | obsEmpty
  | wait
  | complete
deriving DecidableEq

/-- Enqueue candidate addresses at depth 1, each guarded by `ENQUEUED`
(src/unnamed/part_000 lines 150-153, the pushes performed by `parseTx`). -/
def pushCandidates (st : BfsSt) (cands : List String) : BfsSt :=
  cands.foldl
    (fun st c =>
      if st.enq.contains c then st
      else { queue := st.queue ++ [(c, 1)], enq := c :: st.enq })
    st

/-- `backfillOne(addr)` (lines 96-107) as it affects the scheduler state: the
`discover` oracle yields the addresses `parseTx` would push while replaying
`addr`'s history. -/
def backfillOneM (discover : String → List String) (st : BfsSt) (a : String) : BfsSt :=
  pushCandidates st (discover a)

/-- The inner `while (BACKFILL_QUEUE.length)` drain (lines 121-124). Returns
the state, the drain events, and whether the queue was emptied (false only on
fuel exhaustion). -/
def drainLoop (discover : String → List String) :
    ℕ → BfsSt → BfsSt × List BEv × Bool
  | 0, st => (st, [], st.queue.isEmpty)
  | fuel + 1, st =>
    match st.queue with
    | [] => (st, [], true)
    | (a, _) :: rest =>
      let st1 := backfillOneM discover { st with queue := rest } a
      let r := drainLoop discover fuel st1
      (r.1, BEv.drainAddr a :: r.2.1, r.2.2)

/-- The outer `while (true)` of `backfillBFS` (lines 119-135). `lastSize` is
the loop variable of the same name (initially -1, set to 0 on the first empty
observation and never reset); `arrive w` is the oracle for addresses enqueued
during the w-th settle window. Returns the state, the trace, and whether the
loop exited through its `break` (false only on fuel exhaustion). -/
def outerLoop (discover : String → List String) (arrive : ℕ → List String) :
    ℕ → ℕ → ℕ → Int → BfsSt → BfsSt × List BEv × Bool
  | 0, _, _, _, st => (st, [], false)
  | ofuel + 1, ifuel, waits, lastSize, st =>
    let d := drainLoop discover ifuel st
    if d.1.queue.length = 0 then
      if lastSize = 0 then (d.1, d.2.1 ++ [BEv.obsEmpty], true) else
      let st2 := pushCandidates d.1 (arrive waits)
      let r := outerLoop discover arrive ofuel ifuel (waits + 1) 0 st2
      (r.1, d.2.1 ++ [BEv.obsEmpty, BEv.wait] ++ r.2.1, r.2.2)
    else
      let r := outerLoop discover arrive ofuel ifuel waits lastSize d.1
      (r.1, d.2.1 ++ r.2.1, r.2.2)

/-- The seeding prologue of `backfillBFS()` (lines 111-116): push each seed at
depth 0, guarded by `ENQUEUED`. -/
def seedQueue (seeds : List String) : BfsSt :=
  seeds.foldl
    (fun st a =>
      if st.enq.contains a then st
      else { queue := st.queue ++ [(a, 0)], enq := a :: st.enq })
    ({} : BfsSt)

/-- `backfillBFS()` continued: run the outer loop from the seeded state and —
when the loop exits through its `break` — log completion and flip
`IN_BACKFILL`. -/
def backfillBFS (discover : String → List String) (arrive : ℕ → List String)
    (seeds : List String) (ofuel ifuel : ℕ) : BfsSt × List BEv :=
  let r := outerLoop discover arrive ofuel ifuel 0 (-1) (seedQueue seeds)
  (r.1, if r.2.2 then r.2.1 ++ [BEv.complete] else r.2.1)

end BFS

/-- Modelled from the spec: the destination key the classifier would use per
§4.3 step 5 and §6, where token destinations expressed as a token account are
resolved to their owning account through the LedgerClient's
`resolveTokenAccountOwner` secondary lookup, falling back to the raw token
account address when resolution fails. No such lookup exists in src/index.js;
this definition exists only to be compared against `extractDests`. -/
def specTokenKey (resolve : String → Option String) (inf : ParsedInfo) :
    Option String :=
  if truthy inf.destinationOwner then inf.destinationOwner
  else
    match jsOr inf.destination inf.account with
    | none => none
    | some t => some ((resolve t).getD t)

/-- The destination key actually used by the SPL branch of `handleSignature`
(src/index.js line 152): `destinationOwner || destination || account || null`,
read off the already-parsed instruction, with no network lookup. -/
def tokenKey (inf : ParsedInfo) : Option String :=
  jsOr (jsOr (jsOr inf.destinationOwner inf.destination) inf.account) none

/-- A parsed system-program transfer instruction. -/
def sysTransferIns (src dst : String) (lam : ℕ) : Ins :=
  { program := some "system",
    parsed := some { typ := some "transfer",
                     info := some { source := some src, destination := some dst,
                                    lamports := some lam } } }

/-- A parsed SPL token-program instruction with the given payload. -/
def tokenIns (inf : ParsedInfo) : Ins :=
  { program := some "spl-token",
    parsed := some { typ := some "transfer", info := some inf } }

/-- A parsed SPL transfer from owner `ownr` to the token account / owner
`dst`, in raw units. -/
def tokenTransferIns (ownr dst : String) (amt : ℕ) : Ins :=
  tokenIns { owner := some ownr, destination := some dst, amount := some amt }

/-- The order in which `backfillAllFrom` classifies a history when
deduplication never skips anything: the newest page first, each page reversed
to oldest-first within the page. Defined to characterise `backfillAllFrom`. -/
def pagedOrder (pageSize : ℕ) : ℕ → List String → List String
  | 0, _ => []
  | fuel + 1, hist =>
    match hist.take pageSize with
    | [] => []
    | _ :: _ => (hist.take pageSize).reverse ++ pagedOrder pageSize fuel (hist.drop pageSize)

/-- A configuration with the default thresholds (0.2 SOL, 1e6 raw units),
`MAX_DEPTH` 6 and `TOP_CHILDREN` 3, an empty ignore-list, and every address a
valid public key. -/
def cfgLive : Config := ⟨1/5, 1000000, 6, 3, [], fun _ => true⟩

/-- A one-transaction ledger: signature "S" is a transfer of 1 SOL from A
to N. -/
def ledgerLive : String → Option Tx :=
  fun s => if s = "S" then some { instrs := [sysTransferIns "A" "N" 1000000000] } else none

/-- `cfgLive` with `TOP_CHILDREN = 2` (the top-N scenario). -/
def cfgTopN : Config := ⟨1/5, 1000000, 6, 2, [], fun _ => true⟩

/-- A one-transaction ledger: signature "SA" carries the three transfers
A→X=5 SOL, A→Y=3 SOL, A→Z=8 SOL. -/
def ledgerTopN : String → Option Tx :=
  fun s => if s = "SA" then
    some { instrs := [sysTransferIns "A" "X" 5000000000,
                      sysTransferIns "A" "Y" 3000000000,
                      sysTransferIns "A" "Z" 8000000000] }
  else none

/-- `cfgLive` with `MAX_DEPTH = 1` (the depth-bound scenario). -/
def cfgDepth1 : Config := ⟨1/5, 1000000, 1, 3, [], fun _ => true⟩

/-- A one-transaction ledger: signature "SB" is a transfer of 1 SOL from B
to C. -/
def ledgerDepth1 : String → Option Tx :=
  fun s => if s = "SB" then some { instrs := [sysTransferIns "B" "C" 1000000000] } else none

/-- `cfgLive` with `TOP_CHILDREN = 1` (the mixed-units scenario). -/
def cfgMixed : Config := ⟨1/5, 1000000, 6, 1, [], fun _ => true⟩

/-- A token transfer whose destination is the token account "T" and whose
parsed payload carries no `destinationOwner`. -/
def infToken : ParsedInfo := { owner := some "A", destination := some "T", amount := some 2000000 }

/-- An owner-resolution oracle under which token account "T" is resolvable to
owner "O". -/
def resolveOwnerT : String → Option String := fun t => if t = "T" then some "O" else none

/-- A call that fails twice with a transient fault, then succeeds. -/
def flakyCall : ℕ → Except String ℕ := fun n => if n ≤ 2 then .error "transient" else .ok 7

/-- A call that always fails. -/
def failingCall : ℕ → Except String ℕ := fun _ => .error "boom"

/-- Recognise expansion-edge events. -/
def isEdgeEv : Ev → Bool
  | .edge _ _ _ _ => true
  | _ => false

/-- A discovery oracle under which no address expands to anything. -/
def discoverNone : String → List String := fun _ => []

/-- An arrival oracle delivering address "B" during the first settle window
and nothing afterwards. -/
def arriveB : ℕ → List String := fun w => if w = 0 then ["B"] else []

/-- An arrival oracle delivering nothing. -/
def arriveNone : ℕ → List String := fun _ => []

/-- Events a classification may emit besides its `SEEN` insertion and its
transaction fetch: the mint signal, expansion edges, depth warnings. -/
def benignEv : Ev → Prop
  | .mint _ _ => True
  | .edge _ _ _ _ => True
  | .maxDepthWarn _ => True
  | _ => False

/-- In trace `l`, every fetch of signature `s` is preceded by the insertion of
`s` into `SEEN`. -/
def fetchAfterSeen (l : List Ev) (s : String) : Prop :=
  ∀ n, l.get? n = some (Ev.fetch s) → ∃ m, m < n ∧ l.get? m = some (Ev.seenAdd s)

/-! ## Lemmas about the JS map model -/

theorem mapGet_mapSet_self {κ ν : Type} [DecidableEq κ] (m : List (κ × ν)) (k : κ) (v : ν) :
    mapGet (mapSet m k v) k = some v := by
  induction m with
  | nil => simp [mapGet, mapSet]
  | cons hd tl ih =>
    obtain ⟨k', v'⟩ := hd
    by_cases h : k' = k <;> simp [mapGet, mapSet, h, ih]

theorem mapGet_mapSet_ne {κ ν : Type} [DecidableEq κ] (m : List (κ × ν)) {k k' : κ} (v : ν)
    (h : k' ≠ k) : mapGet (mapSet m k v) k' = mapGet m k' := by
  induction m with
  | nil => simp [mapGet, mapSet, Ne.symm h]
  | cons hd tl ih =>
    obtain ⟨k'', v''⟩ := hd
    by_cases h2 : k'' = k
    · subst h2
      simp [mapGet, mapSet, h, Ne.symm h]
    · simp only [mapSet, if_neg h2]
      by_cases h3 : k'' = k' <;> simp [mapGet, h3, ih]

theorem mem_mapSet {κ ν : Type} [DecidableEq κ] {m : List (κ × ν)} {k : κ} {v : ν}
    {p : κ × ν} (h : p ∈ mapSet m k v) : p = (k, v) ∨ p ∈ m := by
  induction m with
  | nil => simpa [mapSet] using h
  | cons hd tl ih =>
    obtain ⟨k', v'⟩ := hd
    by_cases h2 : k' = k
    · simp only [mapSet, if_pos h2] at h
      rcases List.mem_cons.1 h with h | h
      · exact Or.inl h
      · exact Or.inr (List.mem_cons_of_mem _ h)
    · simp only [mapSet, if_neg h2] at h
      rcases List.mem_cons.1 h with h | h
      · exact Or.inr (h ▸ List.mem_cons_self _ _)
      · rcases ih h with h | h
        · exact Or.inl h
        · exact Or.inr (List.mem_cons_of_mem _ h)

theorem mapGet_mem {κ ν : Type} [DecidableEq κ] {m : List (κ × ν)} {k : κ} {v : ν}
    (h : mapGet m k = some v) : (k, v) ∈ m := by
  induction m with
  | nil => simp [mapGet] at h
  | cons hd tl ih =>
    obtain ⟨k', v'⟩ := hd
    by_cases h2 : k' = k
    · subst h2
      simp only [mapGet, if_true, eq_self_iff_true, Option.some.injEq] at h
      subst h
      exact List.mem_cons_self _ _
    · simp only [mapGet, if_neg h2] at h
      exact List.mem_cons_of_mem _ (ih h)

/-! ## Lemmas about the stable descending sort -/

theorem mem_insertDesc {p q : Option String × ℚ} : ∀ {l}, q ∈ insertDesc p l → q = p ∨ q ∈ l
  | [], h => by simpa [insertDesc] using h
  | r :: rs, h => by
    by_cases h2 : p.2 < r.2
    · simp only [insertDesc, if_pos h2] at h
      rcases List.mem_cons.1 h with h | h
      · exact Or.inr (h ▸ List.mem_cons_self _ _)
      · rcases mem_insertDesc h with h | h
        · exact Or.inl h
        · exact Or.inr (List.mem_cons_of_mem _ h)
    · simp only [insertDesc, if_neg h2] at h
      rcases List.mem_cons.1 h with h | h
      · exact Or.inl h
      · exact Or.inr h

theorem insertDesc_pairwise (p : Option String × ℚ) :
    ∀ {l}, l.Pairwise (fun a b => b.2 ≤ a.2) →
      (insertDesc p l).Pairwise (fun a b => b.2 ≤ a.2)
  | [], _ => by simp [insertDesc]
  | q :: qs, h => by
    rcases List.pairwise_cons.1 h with ⟨hq, hqs⟩
    by_cases h2 : p.2 < q.2
    · simp only [insertDesc, if_pos h2]
      refine List.pairwise_cons.2 ⟨?_, insertDesc_pairwise p hqs⟩
      intro r hr
      rcases mem_insertDesc hr with h3 | h3
      · exact h3 ▸ le_of_lt h2
      · exact hq r h3
    · simp only [insertDesc, if_neg h2]
      push_neg at h2
      refine List.pairwise_cons.2 ⟨?_, h⟩
      intro r hr
      rcases List.mem_cons.1 hr with h3 | h3
      · exact h3 ▸ h2
      · exact le_trans (hq r h3) h2

theorem insertDesc_perm (p : Option String × ℚ) :
    ∀ l, (insertDesc p l).Perm (p :: l)
  | [] => by simp [insertDesc]
  | q :: qs => by
    by_cases h2 : p.2 < q.2
    · simp only [insertDesc, if_pos h2]
      exact ((insertDesc_perm p qs).cons q).trans (List.Perm.swap _ _ _)
    · simp [insertDesc, if_neg h2]

theorem sortDesc_perm : ∀ l, (sortDesc l).Perm l
  | [] => by simp [sortDesc]
  | p :: ps => by
    simpa [sortDesc] using (insertDesc_perm p (sortDesc ps)).trans
      ((sortDesc_perm ps).cons p)

theorem sortDesc_pairwise : ∀ l, (sortDesc l).Pairwise (fun a b => b.2 ≤ a.2)
  | [] => by simp [sortDesc]
  | p :: ps => insertDesc_pairwise p (sortDesc_pairwise ps)

theorem insertDesc_filter (v : ℚ) (p : Option String × ℚ) :
    ∀ {l}, l.Pairwise (fun a b => b.2 ≤ a.2) →
      (insertDesc p l).filter (fun q => decide (q.2 = v))
        = if p.2 = v then p :: l.filter (fun q => decide (q.2 = v))
          else l.filter (fun q => decide (q.2 = v))
  | [], _ => by
    by_cases h : p.2 = v <;> simp [insertDesc, h]
  | q :: qs, hpw => by
    rcases List.pairwise_cons.1 hpw with ⟨hq, hqs⟩
    by_cases h2 : p.2 < q.2
    · have hqv : ¬ q.2 = v → True := fun _ => trivial
      simp only [insertDesc, if_pos h2, List.filter_cons]
      rw [insertDesc_filter v p hqs]
      by_cases hp : p.2 = v
      · have : ¬ q.2 = v := by rw [← hp]; exact ne_of_gt h2
        simp [hp, this]
      · simp [hp]
    · simp only [insertDesc, if_neg h2, List.filter_cons]
      by_cases hp : p.2 = v <;> simp [hp]

theorem sortDesc_filter (v : ℚ) :
    ∀ l, (sortDesc l).filter (fun q => decide (q.2 = v))
      = l.filter (fun q => decide (q.2 = v))
  | [] => rfl
  | p :: ps => by
    rw [sortDesc, insertDesc_filter v p (sortDesc_pairwise ps), List.filter_cons]
    by_cases hp : p.2 = v <;> simp [hp, sortDesc_filter v ps]

/-! ## Lemmas about the destination aggregate -/

/-- Inserting an aggregate contribution preserves the entry invariant:
non-ignored key, value at least the smaller threshold. -/
theorem mapSet_agg_inv (cfg : Config) (d : List (Option String × ℚ))
    (k : Option String) (amt thr : ℚ)
    (hd : ∀ p ∈ d, isCEX cfg p.1 = false ∧ min cfg.MIN_SOL cfg.MIN_SPL_UNITS ≤ p.2)
    (hk : isCEX cfg k = false) (hthr : thr ≤ amt) (hnn : 0 ≤ amt)
    (hmin : min cfg.MIN_SOL cfg.MIN_SPL_UNITS ≤ thr) :
    ∀ p ∈ mapSet d k ((mapGet d k).getD 0 + amt),
      isCEX cfg p.1 = false ∧ min cfg.MIN_SOL cfg.MIN_SPL_UNITS ≤ p.2 := by
  intro p hp
  rcases mem_mapSet hp with h1 | h1
  · subst h1
    refine ⟨hk, ?_⟩
    rcases h2 : mapGet d k with _ | old
    · simp only [h2, Option.getD_none]
      linarith
    · have := (hd _ (mapGet_mem h2)).2
      simp only [h2, Option.getD_some]
      linarith
  · exact hd p h1

theorem solBranch_inv (cfg : Config) (fromAddr : String) (ins : Ins)
    {dests : List (Option String × ℚ)}
    (h : ∀ p ∈ dests, isCEX cfg p.1 = false ∧ min cfg.MIN_SOL cfg.MIN_SPL_UNITS ≤ p.2) :
    ∀ p ∈ solBranch cfg fromAddr dests ins,
      isCEX cfg p.1 = false ∧ min cfg.MIN_SOL cfg.MIN_SPL_UNITS ≤ p.2 := by
  cases hpi : ins.parsed with
  | none => simpa [solBranch, hpi] using h
  | some p =>
    simp only [solBranch, hpi]
    split
    · split
      · split
        · rename_i h1 h2 h3
          exact mapSet_agg_inv cfg dests _ _ cfg.MIN_SOL h h3.2 h3.1
            (by positivity) (min_le_left _ _)
        · exact h
      · exact h
    · exact h

theorem splBranch_inv (cfg : Config) (fromAddr : String) (ins : Ins)
    {dests : List (Option String × ℚ)}
    (h : ∀ p ∈ dests, isCEX cfg p.1 = false ∧ min cfg.MIN_SOL cfg.MIN_SPL_UNITS ≤ p.2) :
    ∀ p ∈ splBranch cfg fromAddr dests ins,
      isCEX cfg p.1 = false ∧ min cfg.MIN_SOL cfg.MIN_SPL_UNITS ≤ p.2 := by
  cases hpi : ins.parsed with
  | none => simpa [splBranch, hpi] using h
  | some p =>
    simp only [splBranch, hpi]
    split
    · split
      · split
        · rename_i h1 h2 h3
          exact mapSet_agg_inv cfg dests _ _ cfg.MIN_SPL_UNITS h h3.2.2 h3.2.1
            (by positivity) (min_le_right _ _)
        · exact h
      · exact h
    · exact h

/-- Every entry of the aggregate of a transaction names a non-ignored
destination and carries at least the smaller of the two thresholds. -/
theorem extractDests_inv (cfg : Config) (fromAddr : String) (instrs : List Ins) :
    ∀ p ∈ extractDests cfg fromAddr instrs,
      isCEX cfg p.1 = false ∧ min cfg.MIN_SOL cfg.MIN_SPL_UNITS ≤ p.2 := by
  have main : ∀ (l : List Ins) (d : List (Option String × ℚ)),
      (∀ p ∈ d, isCEX cfg p.1 = false ∧ min cfg.MIN_SOL cfg.MIN_SPL_UNITS ≤ p.2) →
      ∀ p ∈ l.foldl (destStep cfg fromAddr) d,
        isCEX cfg p.1 = false ∧ min cfg.MIN_SOL cfg.MIN_SPL_UNITS ≤ p.2 := by
    intro l
    induction l with
    | nil => intro d hd; simpa using hd
    | cons i is ih =>
      intro d hd
      simp only [List.foldl_cons]
      exact ih _ (splBranch_inv cfg fromAddr i (solBranch_inv cfg fromAddr i hd))
  exact main instrs [] (by simp)

/-! ## Lemmas about `addAddress` -/

theorem mapGet_depthUpdate (st : St) (a : String) (d : ℕ) (a' : String) :
    mapGet (depthUpdate st a d) a' =
      if a' = a then
        match mapGet st.depth a with
        | none => some d
        | some d0 => some (min d d0)
      else mapGet st.depth a' := by
  unfold depthUpdate
  by_cases h : a' = a
  · subst h
    cases h2 : mapGet st.depth a' with
    | none => simp [mapGet_mapSet_self]
    | some d0 =>
      by_cases h3 : d < d0
      · simp [h3, mapGet_mapSet_self, Nat.min_def, le_of_lt h3]
      · have : min d d0 = d0 := by omega
        simp [h3, h2, this]
  · cases h2 : mapGet st.depth a with
    | none => simp [h, mapGet_mapSet_ne _ _ h]
    | some d0 =>
      by_cases h3 : d < d0
      · simp [h, h3, mapGet_mapSet_ne _ _ h]
      · simp [h, h3]

theorem addAddress_seen (cfg : Config) (st : St) (addr : Option String) (d : ℕ)
    (b : Bool) : (addAddress cfg st addr d b).1.seen = st.seen := by
  cases addr with
  | none => rfl
  | some a =>
    simp only [addAddress]
    repeat' split
    all_goals rfl

theorem addAddress_watch_false (cfg : Config) (st : St) (addr : Option String)
    (d : ℕ) : (addAddress cfg st addr d false).1.watch = st.watch := by
  cases addr with
  | none => rfl
  | some a =>
    simp only [addAddress]
    repeat' split
    all_goals first | rfl | simp_all

theorem addAddress_evs_false (cfg : Config) (st : St) (addr : Option String)
    (d : ℕ) : (addAddress cfg st addr d false).2 = [] := by
  cases addr with
  | none => rfl
  | some a =>
    simp only [addAddress]
    repeat' split
    all_goals first | rfl | simp_all

theorem addAddress_high_depth (cfg : Config) (st : St) (addr : Option String)
    (d : ℕ) (b : Bool) (h : cfg.MAX_DEPTH < d) :
    addAddress cfg st addr d b = (st, []) := by
  cases addr with
  | none => rfl
  | some a =>
    simp only [addAddress, if_pos h]
    split
    · rfl
    · rfl

/-- The `DEPTH` registry after `addAddress` is either untouched or given by
`depthUpdate` for the supplied address. -/
theorem addAddress_depth_eq (cfg : Config) (st : St) (addr : Option String)
    (d : ℕ) (b : Bool) :
    (addAddress cfg st addr d b).1.depth = st.depth
    ∨ ∃ a, addr = some a ∧ (addAddress cfg st addr d b).1.depth = depthUpdate st a d := by
  cases addr with
  | none => exact Or.inl rfl
  | some a =>
    simp only [addAddress]
    by_cases h1 : a = ""
    · rw [if_pos h1]
      exact Or.inl rfl
    · rw [if_neg h1]
      by_cases h2 : cfg.MAX_DEPTH < d
      · rw [if_pos h2]
        exact Or.inl rfl
      · rw [if_neg h2]
        refine Or.inr ⟨a, rfl, ?_⟩
        repeat' split
        all_goals rfl

/-- The depth registry entry for any address never increases and never
disappears across `addAddress`. -/
theorem addAddress_depth_mono (cfg : Config) (st : St) (addr : Option String)
    (d : ℕ) (b : Bool) (a : String) (d0 : ℕ) (h : mapGet st.depth a = some d0) :
    ∃ d1, mapGet (addAddress cfg st addr d b).1.depth a = some d1 ∧ d1 ≤ d0 := by
  rcases addAddress_depth_eq cfg st addr d b with h1 | ⟨a2, _, h1⟩
  · exact ⟨d0, h1 ▸ h, le_refl _⟩
  · rw [h1, mapGet_depthUpdate]
    by_cases h3 : a = a2
    · subst h3
      rw [if_pos rfl, h]
      exact ⟨min d d0, rfl, min_le_right _ _⟩
    · rw [if_neg h3]
      exact ⟨d0, h, le_refl _⟩

/-- Re-discovery of an address at a depth not smaller than the recorded one
leaves the registry entry unchanged. -/
theorem addAddress_no_raise (cfg : Config) (st : St) (addr : Option String)
    (d : ℕ) (b : Bool) (a : String) (d0 : ℕ) (h : mapGet st.depth a = some d0)
    (hle : d0 ≤ d) :
    mapGet (addAddress cfg st addr d b).1.depth a = some d0 := by
  rcases addAddress_depth_eq cfg st addr d b with h1 | ⟨a2, _, h1⟩
  · exact h1 ▸ h
  · rw [h1, mapGet_depthUpdate]
    by_cases h3 : a = a2
    · subst h3
      rw [if_pos rfl, h]
      show some (min d d0) = some d0
      have : min d d0 = d0 := by omega
      rw [this]
    · rw [if_neg h3]
      exact h

theorem addAddress_evs_subscribed (cfg : Config) (st : St) (addr : Option String)
    (d : ℕ) (b : Bool) :
    ∀ e ∈ (addAddress cfg st addr d b).2, ∃ a' d', e = Ev.subscribed a' d' := by
  cases addr with
  | none => intro e he; simp [addAddress] at he
  | some a =>
    simp only [addAddress]
    repeat' split
    all_goals intro e he
    all_goals simp at he
    all_goals exact ⟨a, d, he⟩

/-! ## Lemmas about the expansion loop and `handleSignature` -/

theorem expandFold_inv (cfg : Config) (fromAddr : String) (depth : ℕ) :
    ∀ (l : List (Option String × ℚ)) (st : St) (evs : List Ev),
      (l.foldl (expandStep cfg fromAddr depth) (st, evs)).1.seen = st.seen
      ∧ (l.foldl (expandStep cfg fromAddr depth) (st, evs)).1.watch = st.watch
      ∧ ∃ extra, (l.foldl (expandStep cfg fromAddr depth) (st, evs)).2 = evs ++ extra
          ∧ ∀ e ∈ extra, benignEv e := by
  intro l
  induction l with
  | nil => exact fun st evs => ⟨rfl, rfl, [], by simp, by simp⟩
  | cons p rest ih =>
    intro st evs
    obtain ⟨dst, amt⟩ := p
    simp only [List.foldl_cons]
    by_cases h : cfg.MAX_DEPTH < depth + 1
    · have hF : expandStep cfg fromAddr depth (st, evs) (dst, amt)
          = (st, evs ++ [Ev.maxDepthWarn dst]) := by
        simp [expandStep, h]
      rw [hF]
      obtain ⟨h1, h2, extra, h3, h4⟩ := ih st (evs ++ [Ev.maxDepthWarn dst])
      refine ⟨h1, h2, Ev.maxDepthWarn dst :: extra, ?_, ?_⟩
      · rw [h3, List.append_assoc]
        rfl
      · intro e he
        rcases List.mem_cons.1 he with he | he
        · subst he; trivial
        · exact h4 e he
    · have hF : expandStep cfg fromAddr depth (st, evs) (dst, amt)
          = ((addAddress cfg st dst (depth + 1) false).1,
             evs ++ [Ev.edge fromAddr dst amt (depth + 1)]
               ++ (addAddress cfg st dst (depth + 1) false).2) := by
        simp [expandStep, h]
      rw [hF, addAddress_evs_false, List.append_nil]
      obtain ⟨h1, h2, extra, h3, h4⟩ :=
        ih (addAddress cfg st dst (depth + 1) false).1
          (evs ++ [Ev.edge fromAddr dst amt (depth + 1)])
      refine ⟨h1.trans (addAddress_seen cfg st dst (depth + 1) false),
        h2.trans (addAddress_watch_false cfg st dst (depth + 1)),
        Ev.edge fromAddr dst amt (depth + 1) :: extra, ?_, ?_⟩
      · rw [h3, List.append_assoc]
        rfl
      · intro e he
        rcases List.mem_cons.1 he with he | he
        · subst he; trivial
        · exact h4 e he

theorem expandFold_depth_mono (cfg : Config) (fromAddr : String) (depth : ℕ) :
    ∀ (l : List (Option String × ℚ)) (st : St) (evs : List Ev) (a : String) (d0 : ℕ),
      mapGet st.depth a = some d0 →
      ∃ d1, mapGet (l.foldl (expandStep cfg fromAddr depth) (st, evs)).1.depth a = some d1
        ∧ d1 ≤ d0 := by
  intro l
  induction l with
  | nil => exact fun st evs a d0 h => ⟨d0, h, le_refl _⟩
  | cons p rest ih =>
    intro st evs a d0 h
    obtain ⟨dst, amt⟩ := p
    simp only [List.foldl_cons]
    by_cases hd : cfg.MAX_DEPTH < depth + 1
    · have hF : expandStep cfg fromAddr depth (st, evs) (dst, amt)
          = (st, evs ++ [Ev.maxDepthWarn dst]) := by
        simp [expandStep, hd]
      rw [hF]
      exact ih st _ a d0 h
    · have hF : expandStep cfg fromAddr depth (st, evs) (dst, amt)
          = ((addAddress cfg st dst (depth + 1) false).1,
             evs ++ [Ev.edge fromAddr dst amt (depth + 1)]
               ++ (addAddress cfg st dst (depth + 1) false).2) := by
        simp [expandStep, hd]
      rw [hF]
      obtain ⟨d1, h1, hle1⟩ := addAddress_depth_mono cfg st dst (depth + 1) false a d0 h
      obtain ⟨d2, h2, hle2⟩ := ih _ _ a d1 h1
      exact ⟨d2, h2, le_trans hle2 hle1⟩

theorem handleSignature_seen (cfg : Config) (ledger : String → Option Tx) (st : St)
    (fromAddr : String) (depth : ℕ) (sig : String) :
    (handleSignature cfg ledger st fromAddr depth sig).1.seen = sig :: st.seen := by
  unfold handleSignature
  cases hl : ledger sig with
  | none => rfl
  | some tx =>
    dsimp only
    repeat' split
    all_goals first
      | rfl
      | exact (expandFold_inv cfg fromAddr depth _ _ _).1

theorem handleSignature_watch (cfg : Config) (ledger : String → Option Tx) (st : St)
    (fromAddr : String) (depth : ℕ) (sig : String) :
    (handleSignature cfg ledger st fromAddr depth sig).1.watch = st.watch := by
  unfold handleSignature
  cases hl : ledger sig with
  | none => rfl
  | some tx =>
    dsimp only
    repeat' split
    all_goals first
      | rfl
      | exact (expandFold_inv cfg fromAddr depth _ _ _).2.1

theorem handleSignature_depth_mono (cfg : Config) (ledger : String → Option Tx)
    (st : St) (fromAddr : String) (depth : ℕ) (sig : String) (a : String) (d0 : ℕ)
    (h : mapGet st.depth a = some d0) :
    ∃ d1, mapGet (handleSignature cfg ledger st fromAddr depth sig).1.depth a = some d1
      ∧ d1 ≤ d0 := by
  unfold handleSignature
  cases hl : ledger sig with
  | none => exact ⟨d0, h, le_refl _⟩
  | some tx =>
    dsimp only
    repeat' split
    all_goals first
      | exact ⟨d0, h, le_refl _⟩
      | exact expandFold_depth_mono cfg fromAddr depth _ _ _ a d0 h

theorem handleSignature_evs (cfg : Config) (ledger : String → Option Tx) (st : St)
    (fromAddr : String) (depth : ℕ) (sig : String) :
    ∃ rest, (handleSignature cfg ledger st fromAddr depth sig).2
        = Ev.seenAdd sig :: Ev.fetch sig :: rest
      ∧ ∀ e ∈ rest, benignEv e := by
  unfold handleSignature
  cases hl : ledger sig with
  | none => exact ⟨[], rfl, by simp⟩
  | some tx =>
    dsimp only
    by_cases hm : (tx.logMessages.any fun l => containsSub l "Instruction: InitializeMint") = true
    · rw [if_pos hm]
      by_cases hd : (extractDests cfg fromAddr tx.instrs).isEmpty = true
      · rw [if_pos hd]
        exact ⟨[Ev.mint fromAddr sig], rfl, by
          intro e he
          simp at he
          subst he
          trivial⟩
      · rw [if_neg hd]
        obtain ⟨_, _, extra, h3, h4⟩ := expandFold_inv cfg fromAddr depth
          (topChildren cfg (extractDests cfg fromAddr tx.instrs)) _ _
        refine ⟨Ev.mint fromAddr sig :: extra, ?_, ?_⟩
        · rw [h3]
          rfl
        · intro e he
          rcases List.mem_cons.1 he with he | he
          · subst he; trivial
          · exact h4 e he
    · rw [if_neg hm]
      by_cases hd : (extractDests cfg fromAddr tx.instrs).isEmpty = true
      · rw [if_pos hd]
        exact ⟨[], rfl, by simp⟩
      · rw [if_neg hd]
        obtain ⟨_, _, extra, h3, h4⟩ := expandFold_inv cfg fromAddr depth
          (topChildren cfg (extractDests cfg fromAddr tx.instrs)) _ _
        exact ⟨extra, by rw [h3]; rfl, h4⟩

theorem handleSignature_count (cfg : Config) (ledger : String → Option Tx) (st : St)
    (fromAddr : String) (depth : ℕ) (sig s : String) :
    (handleSignature cfg ledger st fromAddr depth sig).2.count (Ev.seenAdd s)
      = if sig = s then 1 else 0 := by
  obtain ⟨rest, h1, h2⟩ := handleSignature_evs cfg ledger st fromAddr depth sig
  rw [h1]
  have hrest : rest.count (Ev.seenAdd s) = 0 := by
    refine List.count_eq_zero.2 fun hmem => ?_
    have := h2 _ hmem
    simp [benignEv] at this
  by_cases hs : sig = s
  · subst hs
    simp [List.count_cons, hrest]
  · simp [List.count_cons, hrest, hs, Ne.symm hs]

theorem handleSignature_fetchAfterSeen (cfg : Config) (ledger : String → Option Tx)
    (st : St) (fromAddr : String) (depth : ℕ) (sig s : String) :
    fetchAfterSeen (handleSignature cfg ledger st fromAddr depth sig).2 s := by
  obtain ⟨rest, h1, h2⟩ := handleSignature_evs cfg ledger st fromAddr depth sig
  rw [h1]
  intro n hn
  match n with
  | 0 => simp at hn
  | 1 =>
    simp only [List.get?] at hn
    have : sig = s := by simpa using hn
    subst this
    exact ⟨0, by omega, rfl⟩
  | n + 2 =>
    exfalso
    simp only [List.get?] at hn
    have := h2 _ (List.get?_mem hn)
    simp [benignEv] at this

/-! ## Lemmas about the intake paths and whole-lifetime traces -/

theorem fetchAfterSeen_nil (s : String) : fetchAfterSeen [] s := by
  intro n hn
  simp at hn

theorem fetchAfterSeen_append {l1 l2 : List Ev} {s : String}
    (h1 : fetchAfterSeen l1 s) (h2 : fetchAfterSeen l2 s) :
    fetchAfterSeen (l1 ++ l2) s := by
  intro n hn
  by_cases h : n < l1.length
  · rw [List.get?_append h] at hn
    obtain ⟨m, hm, hget⟩ := h1 n hn
    exact ⟨m, hm, by rw [List.get?_append (lt_trans hm h)]; exact hget⟩
  · push_neg at h
    rw [List.get?_append_right h] at hn
    obtain ⟨m, hm, hget⟩ := h2 _ hn
    refine ⟨l1.length + m, by omega, ?_⟩
    rw [List.get?_append_right (by omega)]
    simpa [Nat.add_sub_cancel_left] using hget

theorem fetchAfterSeen_no_fetch {l : List Ev} {s : String}
    (h : ∀ n, l.get? n ≠ some (Ev.fetch s)) : fetchAfterSeen l s := by
  intro n hn
  exact absurd hn (h n)

theorem runIntake_seen_mono (cfg : Config) (ledger : String → Option Tx) (st : St)
    (e : Intake) (s : String) (h : s ∈ st.seen) :
    s ∈ (runIntake cfg ledger st e).1.seen := by
  cases e with
  | live addr d0 sig =>
    cases sig with
    | none => exact h
    | some s' =>
      simp only [runIntake]
      split
      · exact h
      · split
        · exact h
        · rw [handleSignature_seen]
          exact List.mem_cons_of_mem _ h
  | backfill addr s' =>
    simp only [runIntake]
    split
    · exact h
    · rw [handleSignature_seen]
      exact List.mem_cons_of_mem _ h
  | addAddr addr depth b =>
    simp only [runIntake]
    rw [addAddress_seen]
    exact h

/-- Each intake unit either classifies nothing relevant to `s`, leaving the
`SEEN` status of `s` unchanged, or classifies exactly `s`, which requires `s`
to be unseen and marks it seen. -/
theorem runIntake_classify (cfg : Config) (ledger : String → Option Tx) (st : St)
    (e : Intake) (s : String) :
    ((runIntake cfg ledger st e).2.count (Ev.seenAdd s) = 0
      ∧ (s ∈ st.seen ↔ s ∈ (runIntake cfg ledger st e).1.seen))
    ∨ ((runIntake cfg ledger st e).2.count (Ev.seenAdd s) = 1
      ∧ s ∉ st.seen ∧ s ∈ (runIntake cfg ledger st e).1.seen) := by
  have classify : ∀ (addr : String) (d : ℕ) (sig : String),
      st.seen.contains sig = false →
      ((handleSignature cfg ledger st addr d sig).2.count (Ev.seenAdd s) = 0
        ∧ (s ∈ st.seen ↔ s ∈ (handleSignature cfg ledger st addr d sig).1.seen))
      ∨ ((handleSignature cfg ledger st addr d sig).2.count (Ev.seenAdd s) = 1
        ∧ s ∉ st.seen ∧ s ∈ (handleSignature cfg ledger st addr d sig).1.seen) := by
    intro addr d sig hguard
    by_cases hs : sig = s
    · subst hs
      refine Or.inr ⟨by rw [handleSignature_count]; simp, ?_, ?_⟩
      · intro hmem
        rw [← List.elem_iff] at hmem
        simp [List.contains] at hguard
        exact absurd hmem (by simpa using hguard)
      · rw [handleSignature_seen]
        exact List.mem_cons_self _ _
    · refine Or.inl ⟨by rw [handleSignature_count]; simp [hs], ?_⟩
      rw [handleSignature_seen]
      constructor
      · exact List.mem_cons_of_mem _
      · intro hmem
        rcases List.mem_cons.1 hmem with h | h
        · exact absurd h.symm hs
        · exact h
  cases e with
  | live addr d0 sig =>
    cases sig with
    | none => exact Or.inl ⟨rfl, Iff.rfl⟩
    | some s' =>
      simp only [runIntake]
      split
      · exact Or.inl ⟨rfl, Iff.rfl⟩
      · split
        · exact Or.inl ⟨rfl, Iff.rfl⟩
        · rename_i hne hguard
          exact classify addr _ s' (by simpa using hguard)
  | backfill addr s' =>
    simp only [runIntake]
    split
    · exact Or.inl ⟨rfl, Iff.rfl⟩
    · rename_i hguard
      exact classify addr _ s' (by simpa using hguard)
  | addAddr addr depth b =>
    refine Or.inl ⟨?_, by simp only [runIntake]; rw [addAddress_seen]⟩
    refine List.count_eq_zero.2 fun hmem => ?_
    obtain ⟨a', d', he⟩ := addAddress_evs_subscribed cfg st addr depth b _ hmem
    simp at he

theorem runIntake_fetchAfterSeen (cfg : Config) (ledger : String → Option Tx)
    (st : St) (e : Intake) (s : String) :
    fetchAfterSeen (runIntake cfg ledger st e).2 s := by
  cases e with
  | live addr d0 sig =>
    cases sig with
    | none => exact fetchAfterSeen_nil s
    | some s' =>
      simp only [runIntake]
      split
      · exact fetchAfterSeen_nil s
      · split
        · exact fetchAfterSeen_nil s
        · exact handleSignature_fetchAfterSeen cfg ledger st addr _ s' s
  | backfill addr s' =>
    simp only [runIntake]
    split
    · exact fetchAfterSeen_nil s
    · exact handleSignature_fetchAfterSeen cfg ledger st addr _ s' s
  | addAddr addr depth b =>
    refine fetchAfterSeen_no_fetch fun n hn => ?_
    have hmem := List.get?_mem hn
    obtain ⟨a', d', he⟩ := addAddress_evs_subscribed cfg st addr depth b _ hmem
    simp at he

theorem runIntake_depth_mono (cfg : Config) (ledger : String → Option Tx) (st : St)
    (e : Intake) (a : String) (d0 : ℕ) (h : mapGet st.depth a = some d0) :
    ∃ d1, mapGet (runIntake cfg ledger st e).1.depth a = some d1 ∧ d1 ≤ d0 := by
  cases e with
  | live addr dd sig =>
    cases sig with
    | none => exact ⟨d0, h, le_refl _⟩
    | some s' =>
      simp only [runIntake]
      split
      · exact ⟨d0, h, le_refl _⟩
      · split
        · exact ⟨d0, h, le_refl _⟩
        · exact handleSignature_depth_mono cfg ledger st addr _ s' a d0 h
  | backfill addr s' =>
    simp only [runIntake]
    split
    · exact ⟨d0, h, le_refl _⟩
    · exact handleSignature_depth_mono cfg ledger st addr _ s' a d0 h
  | addAddr addr depth b =>
    exact addAddress_depth_mono cfg st addr depth b a d0 h

theorem runTrace_count (cfg : Config) (ledger : String → Option Tx) :
    ∀ (es : List Intake) (st : St) (s : String),
      (runTrace cfg ledger st es).2.count (Ev.seenAdd s)
        ≤ if s ∈ st.seen then 0 else 1 := by
  intro es
  induction es with
  | nil => intro st s; simp [runTrace]
  | cons e rest ih =>
    intro st s
    simp only [runTrace, List.count_append]
    rcases runIntake_classify cfg ledger st e s with ⟨hc, hiff⟩ | ⟨hc, hnot, hin⟩
    · rw [hc]
      by_cases hmem : s ∈ st.seen
      · have := ih (runIntake cfg ledger st e).1 s
        rw [if_pos (hiff.1 hmem)] at this
        simpa [hmem] using this
      · have := ih (runIntake cfg ledger st e).1 s
        have hle : (runTrace cfg ledger (runIntake cfg ledger st e).1 rest).2.count
            (Ev.seenAdd s) ≤ 1 := le_trans this (by split <;> omega)
        simpa [hmem] using hle
    · rw [hc]
      have := ih (runIntake cfg ledger st e).1 s
      rw [if_pos hin] at this
      simp only [if_neg hnot]
      omega

theorem runTrace_fetchAfterSeen (cfg : Config) (ledger : String → Option Tx) :
    ∀ (es : List Intake) (st : St) (s : String),
      fetchAfterSeen (runTrace cfg ledger st es).2 s := by
  intro es
  induction es with
  | nil => intro st s; exact fetchAfterSeen_nil s
  | cons e rest ih =>
    intro st s
    simp only [runTrace]
    exact fetchAfterSeen_append (runIntake_fetchAfterSeen cfg ledger st e s)
      (ih _ s)

theorem runTrace_depth_mono (cfg : Config) (ledger : String → Option Tx) :
    ∀ (es : List Intake) (st : St) (a : String) (d0 : ℕ),
      mapGet st.depth a = some d0 →
      ∃ d1, mapGet (runTrace cfg ledger st es).1.depth a = some d1 ∧ d1 ≤ d0 := by
  intro es
  induction es with
  | nil => exact fun st a d0 h => ⟨d0, h, le_refl _⟩
  | cons e rest ih =>
    intro st a d0 h
    simp only [runTrace]
    obtain ⟨d1, h1, hle1⟩ := runIntake_depth_mono cfg ledger st e a d0 h
    obtain ⟨d2, h2, hle2⟩ := ih _ a d1 h1
    exact ⟨d2, h2, le_trans hle2 hle1⟩

/-! ## Lemmas about the retry helper -/

/-- If calls up to attempt `k` fail and call `k` succeeds, the loop returns
the success value after sleeping the exponential backoffs of the failed
attempts. -/
theorem retryGo_ok {α : Type} (fn : ℕ → Except String α) (maxR base : ℕ) (x : α)
    (k : ℕ) :
    ∀ (fuel attempt : ℕ), attempt < k → k ≤ maxR →
      (∀ j, attempt < j → j < k → ∃ m, fn j = .error m) →
      fn k = .ok x → maxR - attempt ≤ fuel →
      retryGo fn maxR base attempt fuel
        = (.ok x, (List.range' (attempt + 1) (k - 1 - attempt)).map fun n => base * 2 ^ (n - 1)) := by
  intro fuel
  induction fuel with
  | zero =>
    intro attempt h1 h2 h3 h4 h5
    exact absurd h5 (by omega)
  | succ fuel ih =>
    intro attempt h1 h2 h3 h4 h5
    by_cases hk : attempt + 1 = k
    · have hok : fn (attempt + 1) = .ok x := hk ▸ h4
      have hlen : k - 1 - attempt = 0 := by omega
      simp [retryGo, hok, hlen]
    · obtain ⟨m, hm⟩ := h3 (attempt + 1) (by omega) (by omega)
      have hlt : ¬ maxR ≤ attempt + 1 := by omega
      rw [show retryGo fn maxR base attempt (fuel + 1)
          = ((retryGo fn maxR base (attempt + 1) fuel).1,
             base * 2 ^ (attempt + 1 - 1) :: (retryGo fn maxR base (attempt + 1) fuel).2)
        from by simp [retryGo, hm, hlt]]
      rw [ih (attempt + 1) (by omega) h2 (fun j hj1 hj2 => h3 j (by omega) hj2) h4 (by omega)]
      have hlen : k - 1 - attempt = (k - 1 - (attempt + 1)) + 1 := by omega
      rw [hlen, List.range'_succ]
      simp

/-- If every call up to `MAX_RETRIES` fails, the loop raises the terminal
error carrying the attempt count and the last message, after sleeping the
exponential backoffs of the first `MAX_RETRIES - 1` failures. -/
theorem retryGo_err {α : Type} (fn : ℕ → Except String α) (maxR base : ℕ)
    (msgf : ℕ → String) :
    ∀ (fuel attempt : ℕ), attempt < maxR →
      (∀ j, attempt < j → j ≤ maxR → fn j = .error (msgf j)) →
      maxR - attempt ≤ fuel →
      retryGo fn maxR base attempt fuel
        = ((.error (maxR, msgf maxR) : Except (ℕ × String) α),
           (List.range' (attempt + 1) (maxR - 1 - attempt)).map fun n => base * 2 ^ (n - 1)) := by
  intro fuel
  induction fuel with
  | zero =>
    intro attempt h1 h2 h3
    exact absurd h3 (by omega)
  | succ fuel ih =>
    intro attempt h1 h2 h3
    have hm : fn (attempt + 1) = .error (msgf (attempt + 1)) :=
      h2 (attempt + 1) (by omega) (by omega)
    by_cases hk : attempt + 1 = maxR
    · have hm2 : fn maxR = .error (msgf maxR) := hk ▸ hm
      have hlen : maxR - 1 - attempt = 0 := by omega
      simp [retryGo, hm, hm2, hk, hlen]
    · have hlt : ¬ maxR ≤ attempt + 1 := by omega
      rw [show retryGo fn maxR base attempt (fuel + 1)
          = ((retryGo fn maxR base (attempt + 1) fuel).1,
             base * 2 ^ (attempt + 1 - 1) :: (retryGo fn maxR base (attempt + 1) fuel).2)
        from by simp [retryGo, hm, hlt]]
      rw [ih (attempt + 1) (by omega) (fun j hj1 hj2 => h2 j (by omega) hj2) (by omega)]
      have hlen : maxR - 1 - attempt = (maxR - 1 - (attempt + 1)) + 1 := by omega
      rw [hlen, List.range'_succ]
      simp

/-! ## Claim theorems -/

/-- C1: for every signature `s`, classification has an observable effect at
most once over the whole process lifetime. Over any interleaving of live
notifications, backfill page-walk signatures and boot `addAddress` calls,
from any starting state: `s` is inserted into `SEEN` at most once (both
intake paths check `SEEN` and no-op on a signature already present,
regardless of address or phase), and every fetch of `s` is preceded in the
trace by the insertion of `s` into `SEEN` (the mark happens synchronously at
classification entry, before the network call). -/
theorem classify_effect_at_most_once (cfg : Config) (ledger : String → Option Tx)
    (st0 : St) (es : List Intake) (sig : String) :
    (runTrace cfg ledger st0 es).2.count (Ev.seenAdd sig) ≤ 1
    ∧ fetchAfterSeen (runTrace cfg ledger st0 es).2 sig :=
  ⟨le_trans (runTrace_count cfg ledger es st0 sig) (by split <;> omega),
   runTrace_fetchAfterSeen cfg ledger es st0 sig⟩

/-- C8: for every address `a`, the recorded minimal depth is non-increasing
over time: across any whole-lifetime trace the `DEPTH` entry of `a` never
disappears and never grows, and a single `addAddress` re-discovery of `a` at
a depth not smaller than the stored one leaves the entry unchanged. -/
theorem min_depth_non_increasing (cfg : Config) (ledger : String → Option Tx) :
    (∀ (st0 : St) (es : List Intake) (a : String) (d0 : ℕ),
      mapGet st0.depth a = some d0 →
      ∃ d1, mapGet (runTrace cfg ledger st0 es).1.depth a = some d1 ∧ d1 ≤ d0)
    ∧ (∀ (st : St) (addr : Option String) (d : ℕ) (b : Bool) (a : String) (d0 : ℕ),
      mapGet st.depth a = some d0 → d0 ≤ d →
      mapGet (addAddress cfg st addr d b).1.depth a = some d0) :=
  ⟨fun st0 es a d0 h => runTrace_depth_mono cfg ledger es st0 a d0 h,
   fun st addr d b a d0 h hle => addAddress_no_raise cfg st addr d b a d0 h hle⟩

theorem min_depth_non_increasing_witness :
    (∃ d1, mapGet (runTrace cfgLive ledgerLive ⟨[], [("A", 3)], []⟩
        [.addAddr (some "A") 5 false]).1.depth "A" = some d1 ∧ d1 ≤ 3)
    ∧ mapGet (addAddress cfgLive ⟨[], [("A", 3)], []⟩ (some "A") 5 false).1.depth "A"
        = some 3 :=
  ⟨(min_depth_non_increasing cfgLive ledgerLive).1 ⟨[], [("A", 3)], []⟩
      [.addAddr (some "A") 5 false] "A" 3 rfl,
   (min_depth_non_increasing cfgLive ledgerLive).2 ⟨[], [("A", 3)], []⟩ (some "A") 5 false
      "A" 3 rfl (by omega)⟩

/-- C9: an address whose recording depth would exceed `MAX_DEPTH` is never
registered, subscribed or otherwise acted upon — `addAddress` returns with
the state untouched and no events. Concretely, with `MAX_DEPTH = 1`, address
B at depth 1 and a qualifying 1-SOL transfer B→C: classification emits the
depth-exceeded warning for C, and C ends up in neither `DEPTH` nor `WATCH`. -/
theorem depth_bound_enforced :
    (∀ (cfg : Config) (st : St) (addr : Option String) (d : ℕ) (b : Bool),
      cfg.MAX_DEPTH < d → addAddress cfg st addr d b = (st, []))
    ∧ (runTrace cfgDepth1 ledgerDepth1 ⟨[], [("B", 1)], []⟩ [.backfill "B" "SB"]).2
        = [Ev.seenAdd "SB", Ev.fetch "SB", Ev.maxDepthWarn (some "C")]
    ∧ mapGet (runTrace cfgDepth1 ledgerDepth1 ⟨[], [("B", 1)], []⟩
        [.backfill "B" "SB"]).1.depth "C" = none
    ∧ mapGet (runTrace cfgDepth1 ledgerDepth1 ⟨[], [("B", 1)], []⟩
        [.backfill "B" "SB"]).1.watch "C" = none := by
  refine ⟨fun cfg st addr d b h => addAddress_high_depth cfg st addr d b h, ?_, ?_, ?_⟩
  all_goals
    norm_num +decide [runTrace, runIntake, handleSignature, addAddress, depthUpdate,
      expandStep, topChildren, extractDests, destStep, solBranch, splBranch,
      sysTransferIns, cfgDepth1, ledgerDepth1, mapSet, mapGet, sortDesc, insertDesc,
      isCEX, jsTruthyList, truthy, jsOr, TOKEN_PROGRAMS, List.foldl, containsSub]

theorem depth_bound_enforced_witness :
    addAddress cfgDepth1 ⟨[], [], []⟩ (some "Z") 5 true = (⟨[], [], []⟩, []) :=
  depth_bound_enforced.1 cfgDepth1 ⟨[], [], []⟩ (some "Z") 5 true (by norm_num [cfgDepth1])

/-- C3 (counterexample): after the backfill→live transition (seed A
registered and subscribed), a live notification whose transaction qualifies
a brand-new address N at an in-bound depth leaves N in the depth registry
only: N is never entered into the WatchTable and no subscription-opened
event is emitted for it, contradicting the claim that live-discovered
addresses are subscribed. -/
theorem live_discovered_address_not_watched :
    (runTrace cfgLive ledgerLive {} [.addAddr (some "A") 0 false,
        .addAddr (some "A") 0 true, .live "A" 0 (some "S")]).2
      = [Ev.subscribed "A" 0, Ev.seenAdd "S", Ev.fetch "S", Ev.edge "A" (some "N") 1 1]
    ∧ mapGet (runTrace cfgLive ledgerLive {} [.addAddr (some "A") 0 false,
        .addAddr (some "A") 0 true, .live "A" 0 (some "S")]).1.depth "N" = some 1
    ∧ (1 : ℕ) ≤ cfgLive.MAX_DEPTH
    ∧ mapGet (runTrace cfgLive ledgerLive {} [.addAddr (some "A") 0 false,
        .addAddr (some "A") 0 true, .live "A" 0 (some "S")]).1.watch "N" = none := by
  refine ⟨?_, ?_, by norm_num [cfgLive], ?_⟩
  all_goals
    norm_num +decide [runTrace, runIntake, handleSignature, addAddress, depthUpdate,
      expandStep, topChildren, extractDests, destStep, solBranch, splBranch,
      sysTransferIns, cfgLive, ledgerLive, mapSet, mapGet, sortDesc, insertDesc,
      isCEX, jsTruthyList, truthy, jsOr, TOKEN_PROGRAMS, List.foldl, containsSub]

/-- C3 (amended): expansion from live classification only registers newly
discovered addresses in the depth registry — `handleSignature` always calls
`addAddress` with `subscribeNow = false`, so it never modifies the
WatchTable and never emits a subscription-opened event; live-discovered
addresses are neither subscribed nor enqueued for backfill. -/
theorem live_expansion_never_subscribes (cfg : Config) (ledger : String → Option Tx)
    (st : St) (fromAddr : String) (depth : ℕ) (sig : String) :
    (handleSignature cfg ledger st fromAddr depth sig).1.watch = st.watch
    ∧ ∀ a d, Ev.subscribed a d ∉ (handleSignature cfg ledger st fromAddr depth sig).2 := by
  refine ⟨handleSignature_watch cfg ledger st fromAddr depth sig, ?_⟩
  intro a d hmem
  obtain ⟨rest, h1, h2⟩ := handleSignature_evs cfg ledger st fromAddr depth sig
  rw [h1] at hmem
  rcases List.mem_cons.1 hmem with h | h
  · simp at h
  · rcases List.mem_cons.1 h with h | h
    · simp at h
    · have := h2 _ h
      simp [benignEv] at this

theorem live_expansion_never_subscribes_witness :
    (handleSignature cfgLive ledgerLive ⟨[], [("A", 0)], [("A", 0)]⟩ "A" 0 "S").1.watch
      = [("A", 0)]
    ∧ Ev.subscribed "N" 1
        ∉ (handleSignature cfgLive ledgerLive ⟨[], [("A", 0)], [("A", 0)]⟩ "A" 0 "S").2 :=
  ⟨(live_expansion_never_subscribes cfgLive ledgerLive ⟨[], [("A", 0)], [("A", 0)]⟩
      "A" 0 "S").1,
   (live_expansion_never_subscribes cfgLive ledgerLive ⟨[], [("A", 0)], [("A", 0)]⟩
      "A" 0 "S").2 "N" 1⟩

/-- C5: the retry helper makes up to `MAX_RETRIES` attempts in total,
sleeping `RETRY_BASE_MS * 2^(n-1)` before retry `n`; a success on some attempt
returns its value; after the final failed attempt it raises a terminal error
carrying the attempt count and the last message. Concretely, with
`MAX_RETRIES = 3` and `RETRY_BASE_MS = 500`: two transient failures then a
success sleep 500ms and 1000ms; continued failure raises the fatal error
naming 3 attempts. -/
theorem with_retry_policy :
    (∀ (α : Type) (fn : ℕ → Except String α) (maxR base k : ℕ) (x : α),
      1 ≤ k → k ≤ maxR → (∀ j, 1 ≤ j → j < k → ∃ m, fn j = .error m) → fn k = .ok x →
      withRetry fn maxR base
        = (.ok x, (List.range' 1 (k - 1)).map fun n => base * 2 ^ (n - 1)))
    ∧ (∀ (α : Type) (fn : ℕ → Except String α) (maxR base : ℕ) (msgf : ℕ → String),
      1 ≤ maxR → (∀ j, 1 ≤ j → j ≤ maxR → fn j = .error (msgf j)) →
      withRetry fn maxR base
        = (.error (maxR, msgf maxR), (List.range' 1 (maxR - 1)).map fun n => base * 2 ^ (n - 1)))
    ∧ withRetry flakyCall 3 500 = (.ok 7, [500, 1000])
    ∧ withRetry failingCall 3 500 = (.error (3, "boom"), [500, 1000]) := by
  refine ⟨?_, ?_, rfl, rfl⟩
  · intro α fn maxR base k x h1 h2 h3 h4
    exact retryGo_ok fn maxR base x k (maxR + 1) 0 h1 h2
      (fun j hj1 hj2 => h3 j hj1 hj2) h4 (by omega)
  · intro α fn maxR base msgf h1 h2
    exact retryGo_err fn maxR base msgf (maxR + 1) 0 h1
      (fun j hj1 hj2 => h2 j hj1 hj2) (by omega)

theorem with_retry_policy_witness :
    withRetry flakyCall 3 500 = (.ok 7, (List.range' 1 2).map fun n => 500 * 2 ^ (n - 1))
    ∧ withRetry failingCall 3 500
        = (.error (3, "boom"), (List.range' 1 2).map fun n => 500 * 2 ^ (n - 1)) :=
  ⟨with_retry_policy.1 ℕ flakyCall 3 500 3 7 (by omega) (by omega)
      (fun j hj1 hj2 => ⟨"transient", by
        have hj : j ≤ 2 := by omega
        simp [flakyCall, hj]⟩)
      rfl,
   with_retry_policy.2.1 ℕ failingCall 3 500 (fun _ => "boom") (by omega)
      (fun j hj1 hj2 => rfl)⟩

/-- The inner drain only ever emits drain events. -/
theorem drainLoop_evs (discover : String → List String) :
    ∀ (fuel : ℕ) (st : BFS.BfsSt),
      ∃ ds : List String, (BFS.drainLoop discover fuel st).2.1 = ds.map BFS.BEv.drainAddr := by
  intro fuel
  induction fuel with
  | zero => exact fun st => ⟨[], rfl⟩
  | succ fuel ih =>
    intro st
    cases hq : st.queue with
    | nil => exact ⟨[], by simp [BFS.drainLoop, hq]⟩
    | cons hd rest =>
      obtain ⟨a, d⟩ := hd
      obtain ⟨ds, hds⟩ := ih (BFS.backfillOneM discover { st with queue := rest } a)
      exact ⟨a :: ds, by simp [BFS.drainLoop, hq, hds]⟩

/-- C2 (counterexample): with no expansion, seed A, and one new address B
arriving during the settle window, the loop drains B after the single wait
and then completes at the very next empty observation: the trace ends with
`wait, drain B, queue-empty, complete`, not with two consecutive empty
observations separated by the wait, and only one settle window is ever
waited. -/
theorem backfill_nonconsecutive_empty_observations :
    (BFS.backfillBFS discoverNone arriveB ["A"] 2 4).2
      = [BFS.BEv.drainAddr "A", BFS.BEv.obsEmpty, BFS.BEv.wait,
         BFS.BEv.drainAddr "B", BFS.BEv.obsEmpty, BFS.BEv.complete]
    ∧ (BFS.backfillBFS discoverNone arriveB ["A"] 2 4).2.drop
        ((BFS.backfillBFS discoverNone arriveB ["A"] 2 4).2.length - 4)
      ≠ [BFS.BEv.obsEmpty, BFS.BEv.wait, BFS.BEv.obsEmpty, BFS.BEv.complete]
    ∧ (BFS.backfillBFS discoverNone arriveB ["A"] 2 4).2.count BFS.BEv.wait = 1
    ∧ (BFS.backfillBFS discoverNone arriveB ["A"] 2 4).2.count BFS.BEv.complete = 1 := by
  decide

/-- When the inner drain empties the queue and `lastSize` is already 0, the
outer loop breaks: one more empty observation, then out. -/
theorem outerLoop_break (discover : String → List String) (arrive : ℕ → List String)
    (k ifuel waits : ℕ) (st : BFS.BfsSt)
    (h : (BFS.drainLoop discover ifuel st).1.queue = []) :
    BFS.outerLoop discover arrive (k + 1) ifuel waits 0 st
      = ((BFS.drainLoop discover ifuel st).1,
         (BFS.drainLoop discover ifuel st).2.1 ++ [BFS.BEv.obsEmpty], true) := by
  simp only [BFS.outerLoop]
  rw [if_pos (by rw [h]; rfl)]
  simp

/-- When the inner drain empties the queue and `lastSize` is still -1, the
outer loop observes empty, sets `lastSize` to 0, sleeps the settle window
(during which `arrive waits` is enqueued), and recurses. -/
theorem outerLoop_wait (discover : String → List String) (arrive : ℕ → List String)
    (k ifuel waits : ℕ) (st : BFS.BfsSt)
    (h : (BFS.drainLoop discover ifuel st).1.queue = []) :
    BFS.outerLoop discover arrive (k + 1) ifuel waits (-1) st
      = ((BFS.outerLoop discover arrive k ifuel (waits + 1) 0
            (BFS.pushCandidates (BFS.drainLoop discover ifuel st).1 (arrive waits))).1,
         (BFS.drainLoop discover ifuel st).2.1 ++ [BFS.BEv.obsEmpty, BFS.BEv.wait]
           ++ (BFS.outerLoop discover arrive k ifuel (waits + 1) 0
                (BFS.pushCandidates (BFS.drainLoop discover ifuel st).1 (arrive waits))).2.1,
         (BFS.outerLoop discover arrive k ifuel (waits + 1) 0
            (BFS.pushCandidates (BFS.drainLoop discover ifuel st).1 (arrive waits))).2.2) := by
  simp only [BFS.outerLoop]
  rw [if_pos (by rw [h]; rfl)]
  norm_num

/-- C2 (amended): whenever both inner drains terminate with an empty queue,
the drain loop emits `backfill-phase-complete` exactly once, at the very end,
after exactly one settle window: the trace is some drains, an empty
observation, the settle wait, the drains of whatever arrived during the
window, a final empty observation, and completion. Because `lastSize` is
never reset after the first empty observation, no second settle window is
waited even when new addresses arrive during the window. -/
theorem backfill_complete_single_settle_window (discover : String → List String)
    (arrive : ℕ → List String) (seeds : List String) (ofuel ifuel : ℕ)
    (hofuel : 2 ≤ ofuel)
    (h1 : (BFS.drainLoop discover ifuel (BFS.seedQueue seeds)).1.queue = [])
    (h2 : (BFS.drainLoop discover ifuel
        (BFS.pushCandidates (BFS.drainLoop discover ifuel (BFS.seedQueue seeds)).1
          (arrive 0))).1.queue = []) :
    ∃ ds1 ds2 : List String,
      (BFS.backfillBFS discover arrive seeds ofuel ifuel).2
        = ds1.map BFS.BEv.drainAddr ++ [BFS.BEv.obsEmpty, BFS.BEv.wait]
          ++ ds2.map BFS.BEv.drainAddr ++ [BFS.BEv.obsEmpty, BFS.BEv.complete]
      ∧ (BFS.backfillBFS discover arrive seeds ofuel ifuel).2.count BFS.BEv.complete = 1
      ∧ (BFS.backfillBFS discover arrive seeds ofuel ifuel).2.count BFS.BEv.wait = 1 := by
  obtain ⟨k, rfl⟩ : ∃ k, ofuel = k + 2 := ⟨ofuel - 2, by omega⟩
  obtain ⟨ds1, hds1⟩ := drainLoop_evs discover ifuel (BFS.seedQueue seeds)
  obtain ⟨ds2, hds2⟩ := drainLoop_evs discover ifuel
    (BFS.pushCandidates (BFS.drainLoop discover ifuel (BFS.seedQueue seeds)).1 (arrive 0))
  have step1 := outerLoop_wait discover arrive (k + 1) ifuel 0 (BFS.seedQueue seeds) h1
  have step2 := outerLoop_break discover arrive k ifuel 1
    (BFS.pushCandidates (BFS.drainLoop discover ifuel (BFS.seedQueue seeds)).1 (arrive 0)) h2
  have outer : (BFS.backfillBFS discover arrive seeds (k + 2) ifuel).2
      = ds1.map BFS.BEv.drainAddr ++ [BFS.BEv.obsEmpty, BFS.BEv.wait]
        ++ ds2.map BFS.BEv.drainAddr ++ [BFS.BEv.obsEmpty, BFS.BEv.complete] := by
    simp only [BFS.backfillBFS]
    rw [step1, step2]
    simp [hds1, hds2]
  have hcd : ∀ ds : List String, (ds.map BFS.BEv.drainAddr).count BFS.BEv.complete = 0 :=
    fun ds => List.count_eq_zero.2 (by simp [List.mem_map])
  have hcw : ∀ ds : List String, (ds.map BFS.BEv.drainAddr).count BFS.BEv.wait = 0 :=
    fun ds => List.count_eq_zero.2 (by simp [List.mem_map])
  refine ⟨ds1, ds2, outer, ?_, ?_⟩
  · rw [outer]
    simp [List.count_append, hcd ds1, hcd ds2]
  · rw [outer]
    simp [List.count_append, hcw ds1, hcw ds2]

theorem backfill_complete_single_settle_window_witness :
    ∃ ds1 ds2 : List String,
      (BFS.backfillBFS discoverNone arriveNone ["A"] 2 2).2
        = ds1.map BFS.BEv.drainAddr ++ [BFS.BEv.obsEmpty, BFS.BEv.wait]
          ++ ds2.map BFS.BEv.drainAddr ++ [BFS.BEv.obsEmpty, BFS.BEv.complete]
      ∧ (BFS.backfillBFS discoverNone arriveNone ["A"] 2 2).2.count BFS.BEv.complete = 1
      ∧ (BFS.backfillBFS discoverNone arriveNone ["A"] 2 2).2.count BFS.BEv.wait = 1 :=
  backfill_complete_single_settle_window discoverNone arriveNone ["A"] 2 2
    (by omega) (by decide) (by decide)

/-! ## Lemmas about the backfill page walk -/

/-- On a duplicate-free batch of fresh signatures with no limit configured,
the inner loop classifies every signature in batch order. -/
theorem procBatch_fresh :
    ∀ (batch seen : List String) (count : ℕ),
      batch.Nodup → (∀ s ∈ batch, s ∉ seen) →
      procBatch 0 batch seen count
        = (batch, batch.reverse ++ seen, count + batch.length, false) := by
  intro batch
  induction batch with
  | nil => intro seen count _ _; simp [procBatch]
  | cons a rest ih =>
    intro seen count hnd hfresh
    have ha : a ∉ seen := hfresh a (List.mem_cons_self _ _)
    have hrest : procBatch 0 rest (a :: seen) (count + 1)
        = (rest, rest.reverse ++ (a :: seen), count + 1 + rest.length, false) := by
      refine ih (a :: seen) (count + 1) (List.Nodup.of_cons hnd) ?_
      intro s hs hmem
      rcases List.mem_cons.1 hmem with h | h
      · exact (List.nodup_cons.1 hnd).1 (h ▸ hs)
      · exact hfresh s (List.mem_cons_of_mem _ hs) h
    have main : procBatch 0 (a :: rest) seen count
        = (a :: rest, rest.reverse ++ (a :: seen), count + 1 + rest.length, false) := by
      simp [procBatch, ha, hrest]
    have hc : count + 1 + rest.length = count + (a :: rest).length := by
      simp
      omega
    rw [main, hc]
    simp [List.append_assoc]

/-- `pagedOrder` of an empty history is empty, for any fuel. -/
theorem pagedOrder_nil (ps : ℕ) : ∀ fuel, pagedOrder ps fuel [] = [] := by
  intro fuel
  cases fuel with
  | zero => rfl
  | succ fuel => simp [pagedOrder]

/-- Unfolding `pagedOrder` when the current page is non-empty. -/
theorem pagedOrder_cons (ps fuel : ℕ) (hist : List String) (h : hist.take ps ≠ []) :
    pagedOrder ps (fuel + 1) hist
      = (hist.take ps).reverse ++ pagedOrder ps fuel (hist.drop ps) := by
  cases htake : hist.take ps with
  | nil => exact absurd htake h
  | cons a rest =>
    simp only [pagedOrder, htake]

/-- With no limit configured, the inner loop never hits the early-return. -/
theorem procBatch_zero_no_abort :
    ∀ (batch seen : List String) (count : ℕ),
      (procBatch 0 batch seen count).2.2.2 = false := by
  intro batch
  induction batch with
  | nil => intro seen count; rfl
  | cons a rest ih =>
    intro seen count
    by_cases ha : a ∈ seen
    · simp [procBatch, ha, ih]
    · simp [procBatch, ha, ih]

/-- Unfolding `backfillAllFrom` when the current page is non-empty and no
limit is configured. -/
theorem backfillAllFrom_cons (ps fuel : ℕ) (hist seen : List String) (count : ℕ)
    (h : hist.take ps ≠ []) :
    backfillAllFrom ps 0 (fuel + 1) hist seen count
      = (procBatch 0 (hist.take ps).reverse seen count).1
        ++ backfillAllFrom ps 0 fuel (hist.drop ps)
            (procBatch 0 (hist.take ps).reverse seen count).2.1
            (procBatch 0 (hist.take ps).reverse seen count).2.2.1 := by
  cases htake : hist.take ps with
  | nil => exact absurd htake h
  | cons a rest =>
    simp only [backfillAllFrom, htake]
    simp [procBatch_zero_no_abort]

/-- With enough fuel, an empty `SEEN` and a duplicate-free history,
`backfillAllFrom` classifies exactly the paged order: each page reversed,
newest page first. -/
theorem backfillAllFrom_paged (ps : ℕ) (hps : 1 ≤ ps) :
    ∀ (fuel : ℕ) (hist seen : List String) (count : ℕ),
      hist.Nodup → (∀ s ∈ hist, s ∉ seen) → hist.length ≤ fuel →
      backfillAllFrom ps 0 fuel hist seen count = pagedOrder ps fuel hist := by
  intro fuel
  induction fuel with
  | zero =>
    intro hist seen count _ _ hlen
    have : hist = [] := List.length_eq_zero.1 (by omega)
    subst this
    rfl
  | succ fuel ih =>
    intro hist seen count hnd hfresh hlen
    by_cases htake : hist.take ps = []
    · rcases (List.take_eq_nil_iff.1 htake) with h | h
      · omega
      · subst h
        simp [backfillAllFrom, pagedOrder]
    · have hpagend : (hist.take ps).reverse.Nodup :=
        List.nodup_reverse.2 (hnd.sublist (List.take_sublist ps hist))
      have hpagefresh : ∀ s ∈ (hist.take ps).reverse, s ∉ seen := by
        intro s hs
        exact hfresh s ((List.take_sublist ps hist).subset (List.mem_reverse.1 hs))
      have hbatch := procBatch_fresh (hist.take ps).reverse seen count hpagend hpagefresh
      have hdisj : List.Disjoint (hist.take ps) (hist.drop ps) :=
        List.disjoint_take_drop hnd (le_refl ps)
      have hlenpos : 0 < hist.length := by
        by_contra hcon
        push_neg at hcon
        have : hist = [] := List.length_eq_zero.1 (by omega)
        subst this
        simp at htake
      have hrec : backfillAllFrom ps 0 fuel (hist.drop ps)
          ((hist.take ps).reverse.reverse ++ seen) (count + (hist.take ps).reverse.length)
          = pagedOrder ps fuel (hist.drop ps) := by
        refine ih (hist.drop ps) _ _ (hnd.sublist (List.drop_sublist ps hist)) ?_ ?_
        · intro s hs hmem
          rcases List.mem_append.1 hmem with h | h
          · have hmem2 : s ∈ hist.take ps := by simpa using h
            exact hdisj hmem2 hs
          · exact hfresh s ((List.drop_sublist ps hist).subset hs) h
        · have hld : (hist.drop ps).length = hist.length - ps := List.length_drop ps hist
          omega
      rw [backfillAllFrom_cons ps fuel hist seen count htake, hbatch, hrec,
        pagedOrder_cons ps fuel hist htake]

/-- `pagedOrder` is a permutation of the history: every signature is
classified exactly once. -/
theorem pagedOrder_perm (ps : ℕ) (hps : 1 ≤ ps) :
    ∀ (fuel : ℕ) (hist : List String), hist.length ≤ fuel →
      (pagedOrder ps fuel hist).Perm hist := by
  intro fuel
  induction fuel with
  | zero =>
    intro hist hlen
    have : hist = [] := List.length_eq_zero.1 (by omega)
    subst this
    exact List.Perm.refl _
  | succ fuel ih =>
    intro hist hlen
    by_cases htake : hist.take ps = []
    · rcases (List.take_eq_nil_iff.1 htake) with h | h
      · omega
      · subst h
        simp [pagedOrder]
    · have hrec : (pagedOrder ps fuel (hist.drop ps)).Perm (hist.drop ps) := by
        refine ih (hist.drop ps) ?_
        have hld : (hist.drop ps).length = hist.length - ps := List.length_drop ps hist
        have hlenpos : 0 < hist.length := by
          by_contra hcon
          push_neg at hcon
          have : hist = [] := List.length_eq_zero.1 (by omega)
          subst this
          simp at htake
        omega
      rw [pagedOrder_cons ps fuel hist htake]
      refine (List.Perm.append (List.reverse_perm _) hrec).trans ?_
      rw [List.take_append_drop]

/-- C6 (counterexample): a two-page history (newest first s4,s3,s2,s1, page
size 2) is classified in the order s3,s4,s1,s2 — the newest page first — not
in the globally oldest-to-newest order s1,s2,s3,s4 the claim requires. -/
theorem backfill_not_globally_oldest_first :
    backfillAllFrom 2 0 4 ["s4", "s3", "s2", "s1"] [] 0 = ["s3", "s4", "s1", "s2"]
    ∧ backfillAllFrom 2 0 4 ["s4", "s3", "s2", "s1"] [] 0
        ≠ (["s4", "s3", "s2", "s1"] : List String).reverse := by
  decide

/-- C6 (amended): the backfill page walk pages the history with a
backward-walking cursor and processes the newest page first, reversing each
page so classification is oldest-to-newest within a page; every signature of
a duplicate-free history is classified exactly once, the first `PAGE_SIZE`
classifications are the newest page reversed, and the global order is
oldest-to-newest only when the whole history fits in a single page. -/
theorem backfill_page_order (ps fuel : ℕ) (hist : List String) (hps : 1 ≤ ps)
    (hnd : hist.Nodup) (hfuel : hist.length ≤ fuel) :
    backfillAllFrom ps 0 fuel hist [] 0 = pagedOrder ps fuel hist
    ∧ (pagedOrder ps fuel hist).Perm hist
    ∧ (hist.length ≤ ps → backfillAllFrom ps 0 fuel hist [] 0 = hist.reverse)
    ∧ (ps ≤ hist.length →
        (backfillAllFrom ps 0 fuel hist [] 0).take ps = (hist.take ps).reverse) := by
  have hpaged := backfillAllFrom_paged ps hps fuel hist [] 0 hnd (by simp) hfuel
  have hperm := pagedOrder_perm ps hps fuel hist hfuel
  refine ⟨hpaged, hperm, ?_, ?_⟩
  · intro hone
    rw [hpaged]
    rcases hist with _ | ⟨a, rest⟩
    · exact pagedOrder_nil ps fuel
    · cases fuel with
      | zero => simp at hfuel
      | succ fuel =>
        have htake : (a :: rest).take ps = a :: rest := List.take_of_length_le hone
        have hdrop : (a :: rest).drop ps = [] := List.drop_eq_nil_iff.2 hone
        rw [pagedOrder_cons ps fuel (a :: rest) (by rw [htake]; simp), htake, hdrop,
          pagedOrder_nil ps fuel, List.append_nil]
  · intro hle
    rw [hpaged]
    cases fuel with
    | zero =>
      have : hist = [] := List.length_eq_zero.1 (by omega)
      subst this
      simp at hle
      omega
    | succ fuel =>
      have htake : hist.take ps ≠ [] := by
        intro hcon
        rcases List.take_eq_nil_iff.1 hcon with h | h
        · omega
        · subst h
          simp at hle
          omega
      have hlen : (hist.take ps).reverse.length = ps := by
        simp [List.length_take]
        omega
      rw [pagedOrder_cons ps fuel hist htake]
      exact List.take_left' hlen

theorem backfill_page_order_witness :
    backfillAllFrom 2 0 4 ["s4", "s3", "s2", "s1"] [] 0 = pagedOrder 2 4 ["s4", "s3", "s2", "s1"]
    ∧ (pagedOrder 2 4 ["s4", "s3", "s2", "s1"]).Perm ["s4", "s3", "s2", "s1"]
    ∧ (backfillAllFrom 2 0 4 ["s4", "s3", "s2", "s1"] [] 0).take 2
        = ((["s4", "s3", "s2", "s1"] : List String).take 2).reverse :=
  ⟨(backfill_page_order 2 4 ["s4", "s3", "s2", "s1"] (by omega) (by decide) (by decide)).1,
   (backfill_page_order 2 4 ["s4", "s3", "s2", "s1"] (by omega) (by decide) (by decide)).2.1,
   (backfill_page_order 2 4 ["s4", "s3", "s2", "s1"] (by omega) (by decide) (by decide)).2.2.2
     (by decide)⟩

/-- C4: top-N selection returns at most `TOP_CHILDREN` entries, sorted
descending by aggregated amount with ties broken by first-encountered order
(the sort is stable: for every amount, the entries carrying it appear in the
same order as in the aggregate), and every selected destination is outside
the ignore-list and carries at least the relevant threshold. Concretely, for
A→X=5, A→Y=3, A→Z=8 SOL with threshold 0.2 and `TOP_CHILDREN = 2`, the
selection is (Z,8) then (X,5) and the expansion edges are (A,Z,8), (A,X,5) —
Y is dropped. -/
theorem topn_selection_spec (cfg : Config) (fromAddr : String) (instrs : List Ins) :
    (topChildren cfg (extractDests cfg fromAddr instrs)).length ≤ cfg.TOP_CHILDREN
    ∧ (topChildren cfg (extractDests cfg fromAddr instrs)).Pairwise (fun a b => b.2 ≤ a.2)
    ∧ (∀ v : ℚ, (sortDesc (extractDests cfg fromAddr instrs)).filter (fun q => decide (q.2 = v))
        = (extractDests cfg fromAddr instrs).filter (fun q => decide (q.2 = v)))
    ∧ (∀ p ∈ topChildren cfg (extractDests cfg fromAddr instrs),
        isCEX cfg p.1 = false ∧ min cfg.MIN_SOL cfg.MIN_SPL_UNITS ≤ p.2)
    ∧ topChildren cfgTopN (extractDests cfgTopN "A"
        [sysTransferIns "A" "X" 5000000000, sysTransferIns "A" "Y" 3000000000,
         sysTransferIns "A" "Z" 8000000000])
        = [(some "Z", 8), (some "X", 5)]
    ∧ (handleSignature cfgTopN ledgerTopN ⟨[], [], []⟩ "A" 0 "SA").2.filter isEdgeEv
        = [Ev.edge "A" (some "Z") 8 1, Ev.edge "A" (some "X") 5 1] := by
  refine ⟨?_, ?_, ?_, ?_, ?_, ?_⟩
  · rw [topChildren, List.length_take]
    exact min_le_left _ _
  · exact (sortDesc_pairwise _).sublist (List.take_sublist _ _)
  · exact fun v => sortDesc_filter v _
  · intro p hp
    exact extractDests_inv cfg fromAddr instrs p
      ((sortDesc_perm _).mem_iff.1 ((List.take_sublist _ _).subset hp))
  · norm_num +decide [topChildren, extractDests, destStep, solBranch, splBranch,
      sysTransferIns, cfgTopN, mapSet, mapGet, sortDesc, insertDesc, isCEX,
      jsTruthyList, truthy, jsOr, TOKEN_PROGRAMS, List.foldl]
  · norm_num +decide [handleSignature, expandStep, addAddress, depthUpdate, topChildren,
      extractDests, destStep, solBranch, splBranch, sysTransferIns, cfgTopN, ledgerTopN,
      mapSet, mapGet, sortDesc, insertDesc, isCEX, jsTruthyList, truthy, jsOr,
      TOKEN_PROGRAMS, List.foldl, containsSub, isEdgeEv, List.filter]

theorem topn_selection_spec_witness :
    isCEX cfgTopN (some "Z") = false
    ∧ min cfgTopN.MIN_SOL cfgTopN.MIN_SPL_UNITS ≤ (8 : ℚ) := by
  have hmem : ((some "Z" : Option String), (8 : ℚ)) ∈ topChildren cfgTopN (extractDests cfgTopN "A"
      [sysTransferIns "A" "X" 5000000000, sysTransferIns "A" "Y" 3000000000,
       sysTransferIns "A" "Z" 8000000000]) := by
    norm_num +decide [topChildren, extractDests, destStep, solBranch, splBranch,
      sysTransferIns, cfgTopN, mapSet, mapGet, sortDesc, insertDesc, isCEX,
      jsTruthyList, truthy, jsOr, TOKEN_PROGRAMS, List.foldl]
  exact (topn_selection_spec cfgTopN "A"
    [sysTransferIns "A" "X" 5000000000, sysTransferIns "A" "Y" 3000000000,
     sysTransferIns "A" "Z" 8000000000]).2.2.2.1 _ hmem

/-- C7 (counterexample): a qualifying token transfer whose parsed payload
carries no `destinationOwner` and whose destination is the token account "T",
resolvable on chain to owner "O", is aggregated under the raw token account
"T": the classifier performs no secondary lookup, so the aggregate is not
keyed by "O" as the claim requires. -/
theorem token_account_not_resolved :
    extractDests cfgLive "A" [tokenIns infToken] = [(some "T", 2000000)]
    ∧ specTokenKey resolveOwnerT infToken = some "O"
    ∧ (some "T" : Option String) ≠ some "O" := by
  refine ⟨?_, ?_, by simp⟩
  · norm_num +decide [extractDests, destStep, solBranch, splBranch, tokenIns, infToken,
      cfgLive, mapSet, mapGet, isCEX, jsTruthyList, truthy, jsOr, TOKEN_PROGRAMS, List.foldl]
  · norm_num +decide [specTokenKey, resolveOwnerT, infToken, truthy, jsOr]

/-- C7 (amended): the classifier performs no owner-resolution lookup at all.
A qualifying token transfer is keyed by the parsed payload's
`destinationOwner` field when present, otherwise silently by the raw
`destination` (or `account`) field — the `destinationOwner || destination ||
account` chain of src/index.js line 152. -/
theorem token_key_no_lookup (cfg : Config) (fromAddr : String) (inf : ParsedInfo)
    (howner : (jsTruthyList [inf.owner, inf.sourceOwner, inf.authority]).contains fromAddr
      = true)
    (hkey : truthy (tokenKey inf) = true)
    (hamt : cfg.MIN_SPL_UNITS ≤ ((inf.amount.getD 0 : ℕ) : ℚ))
    (hcex : isCEX cfg (tokenKey inf) = false) :
    extractDests cfg fromAddr [tokenIns inf]
        = [(tokenKey inf, ((inf.amount.getD 0 : ℕ) : ℚ))]
    ∧ (truthy inf.destinationOwner = true → tokenKey inf = inf.destinationOwner) := by
  constructor
  · have hk := hkey
    have hc := hcex
    rw [tokenKey] at hk hc
    have hmem : fromAddr ∈ jsTruthyList [inf.owner, inf.sourceOwner, inf.authority] := by
      simpa using howner
    have hsol : solBranch cfg fromAddr [] (tokenIns inf) = [] := by
      simp [solBranch, tokenIns]
    show destStep cfg fromAddr [] (tokenIns inf) = _
    rw [destStep, hsol]
    simp [splBranch, tokenIns, hmem, hk, hamt, hc, mapSet, mapGet, tokenKey]
  · intro h
    simp [tokenKey, jsOr, h]

theorem token_key_no_lookup_witness :
    extractDests cfgLive "A" [tokenIns infToken]
      = [(tokenKey infToken, ((2000000 : ℕ) : ℚ))] := by
  have h := (token_key_no_lookup cfgLive "A" infToken (by decide) (by decide)
    (by norm_num [cfgLive, infToken]) (by decide)).1
  simpa [infToken] using h

/-- C10: within one transaction, native amounts (lamports divided by 10^9
into decimal SOL) and token amounts (raw integer minor units) accumulate
into the same destination aggregate and are ranked together in one top-N
comparison. A mixed transaction yields one map holding both a
`lamports/1e9` entry and a raw-unit entry; descending sort compares the two
numbers directly, so with `TOP_CHILDREN = 1` a 2e6-raw-unit token transfer
beats a 5-SOL native transfer. -/
theorem mixed_units_share_aggregate :
    (∀ (cfg : Config) (fromAddr X Y : String) (L U : ℕ),
      fromAddr ≠ "" → Y ≠ "" → X ≠ Y →
      cfg.MIN_SOL ≤ (L : ℚ) / 1000000000 → cfg.MIN_SPL_UNITS ≤ (U : ℚ) →
      isCEX cfg (some X) = false → isCEX cfg (some Y) = false →
      extractDests cfg fromAddr [sysTransferIns fromAddr X L, tokenTransferIns fromAddr Y U]
        = [(some X, (L : ℚ) / 1000000000), (some Y, (U : ℚ))])
    ∧ (∀ (K1 K2 : Option String) (a b : ℚ), a < b →
        sortDesc [(K1, a), (K2, b)] = [(K2, b), (K1, a)])
    ∧ topChildren cfgMixed (extractDests cfgMixed "A"
        [sysTransferIns "A" "X" 5000000000, tokenTransferIns "A" "Y" 2000000])
        = [(some "Y", 2000000)] := by
  refine ⟨?_, ?_, ?_⟩
  · intro cfg fromAddr X Y L U hfrom hY hXY hsol hspl hcx hcy
    simp +decide [extractDests, destStep, solBranch, splBranch, sysTransferIns,
      tokenTransferIns, tokenIns, jsOr, truthy, jsTruthyList, mapSet, mapGet,
      TOKEN_PROGRAMS, hsol, hspl, hcx, hcy, hfrom, hY, hXY, Ne.symm hXY]
  · intro K1 K2 a b h
    simp [sortDesc, insertDesc, h]
  · norm_num +decide [topChildren, extractDests, destStep, solBranch, splBranch,
      sysTransferIns, tokenTransferIns, tokenIns, cfgMixed, mapSet, mapGet, sortDesc,
      insertDesc, isCEX, jsTruthyList, truthy, jsOr, TOKEN_PROGRAMS, List.foldl]

theorem mixed_units_share_aggregate_witness :
    extractDests cfgMixed "A"
        [sysTransferIns "A" "X" 5000000000, tokenTransferIns "A" "Y" 2000000]
      = [(some "X", ((5000000000 : ℕ) : ℚ) / 1000000000), (some "Y", ((2000000 : ℕ) : ℚ))] :=
  mixed_units_share_aggregate.1 cfgMixed "A" "X" "Y" 5000000000 2000000
    (by decide) (by decide) (by decide) (by norm_num [cfgMixed]) (by norm_num [cfgMixed])
    (by decide) (by decide)

end RugTracker


